import Mathlib

/-!
Verification development for the `defode` ODE code generator.

The Python source is shallowly embedded as follows.  Expression nodes
(`Calculation` subclasses) and `Variable` objects live in a single arena
(a list of entries); Python object identity becomes the arena index.
A `Calculation`'s operand tuple (`self.terms`) becomes a `List Term`,
where a term is either a reference to another arena node or a raw
numeric literal.  Mutation (`Variable._update`, arena growth when new
nodes are built) is explicit state passing; Python exceptions
(`ValueError`, `AssertionError`) become `Except`/`Option` results.
The graph algorithms delegated to `networkx` (`topological_sort`,
`single_source_shortest_path_length`) are external collaborators and
are embedded by their documented behaviour: a Kahn-style topological
sort over the insertion-ordered node list, and breadth-style
reachability from the source node (only set membership of the result
is used by the source).  The worklist of `classify_all` and the two
sort/reachability routines carry explicit fuel and return `none` when
it runs out, so every definition stays executable.
-/

set_option maxRecDepth 8000

namespace Defode

/-- The three states of `Variable` (`FREE`, `COMPUTED`, `EVOLVING`). -/
inductive VState
  | free
  | computed
  | evolving
deriving DecidableEq, Repr

/-- Which `Calculation` subclass an expression node is. -/
inductive CalcKind
  | constant
  | sum
  | multiply
  | difference
  | division
  | function (function_name : String)
deriving DecidableEq, Repr

/-- One operand (`term`) of a `Calculation`: another graph node, or a raw
numeric literal (Python `int`/`float`; the models here use integers). -/
inductive Term
  | node (id : Nat)
  | lit (v : Int)
deriving DecidableEq, Repr

/-- One arena entry: `expr` embeds a `Calculation` object (kind + terms),
`var` embeds a `Variable` object (`self.state`, `self.calculation`). -/
inductive Entry
  | expr (kind : CalcKind) (terms : List Term)
  | var (state : VState) (calculation : Option Nat)
deriving DecidableEq, Repr

/-- The arena of all constructed Python objects; indices are identities. -/
abbrev Arena := List Entry

/-- Allocate a fresh node, returning the new arena and the node's id. -/
def alloc (a : Arena) (e : Entry) : Arena × Nat :=
  (a ++ [e], a.length)

/-- `Calculation.dependencies`: the operands that are themselves nodes
(literals are excluded). -/
def dependencies (terms : List Term) : List Nat :=
  terms.filterMap fun t =>
    match t with
    | .node i => some i
    | .lit _ => none

/-- Whether the arena id refers to a `Calculation` object. -/
def isCalcEntry (a : Arena) (i : Nat) : Bool :=
  match a[i]? with
  | some (.expr _ _) => true
  | _ => false

/-- Whether a term is a `Calculation` (`isinstance(new_calculation, Calculation)`). -/
def isCalcTerm (a : Arena) : Term → Bool
  | .node i => isCalcEntry a i
  | .lit _ => false

/-- `Variable.state` of the node at `i`, when `i` is a variable. -/
def varState (a : Arena) (i : Nat) : Option VState :=
  match a[i]? with
  | some (.var st _) => some st
  | _ => none

/-- `Variable.is_free`. -/
def is_free (a : Arena) (i : Nat) : Bool :=
  varState a i = some VState.free

/-- `Variable.is_calculated`. -/
def is_calculated (a : Arena) (i : Nat) : Bool :=
  varState a i = some VState.computed

/-- `Variable.is_evolving`. -/
def is_evolving (a : Arena) (i : Nat) : Bool :=
  varState a i = some VState.evolving

/-- `Variable.calculation` of the node at `i`. -/
def calculationOf (a : Arena) (i : Nat) : Option Nat :=
  match a[i]? with
  | some (.var _ c) => c
  | _ => none

/-- Whether `i` is a `Variable` object. -/
def isVarEntry (a : Arena) (i : Nat) : Bool :=
  match a[i]? with
  | some (.var _ _) => true
  | _ => false

/-- `Constant(arg)`: a one-term calculation. -/
def mkConstant (a : Arena) (t : Term) : Arena × Nat :=
  alloc a (.expr .constant [t])

/-- `Sum(a, b)` (from `Node.__add__` / `__radd__`). -/
def mkSum (a : Arena) (t1 t2 : Term) : Arena × Nat :=
  alloc a (.expr .sum [t1, t2])

/-- `Multiply(a, b)` (from `Node.__mul__` / `__rmul__`). -/
def mkMultiply (a : Arena) (t1 t2 : Term) : Arena × Nat :=
  alloc a (.expr .multiply [t1, t2])

/-- `Difference(a, b)` (from `Node.__sub__` / `__rsub__`). -/
def mkDifference (a : Arena) (t1 t2 : Term) : Arena × Nat :=
  alloc a (.expr .difference [t1, t2])

/-- `Division(a, b)` (from `Node.__div__` / `__rdiv__`). -/
def mkDivision (a : Arena) (t1 t2 : Term) : Arena × Nat :=
  alloc a (.expr .division [t1, t2])

/-- `Function(function_name, *args)`. -/
def mkFunction (a : Arena) (function_name : String) (args : List Term) : Arena × Nat :=
  alloc a (.expr (.function function_name) args)

/-- `function_factory(name, arg_len)` applied to `args`: raises
`ValueError("Bad argument list for %s" % name)` when a fixed arity is
registered and the operand count differs. -/
def function_factory (a : Arena) (name : String) (arg_len : Option Nat) (args : List Term) :
    Except String (Arena × Nat) :=
  match arg_len with
  | some n =>
    if args.length ≠ n then .error ("Bad argument list for " ++ name)
    else .ok (mkFunction a name args)
  | none => .ok (mkFunction a name args)

/-- `functions.py`: `pow = function_factory('pow', 2)`. -/
def pow (a : Arena) (args : List Term) : Except String (Arena × Nat) :=
  function_factory a "pow" (some 2) args

/-- `functions.py`: `sin = function_factory('sin', 1)`. -/
def sin (a : Arena) (args : List Term) : Except String (Arena × Nat) :=
  function_factory a "sin" (some 1) args

/-- Overwrite the variable at `v` with new state and calculation. -/
def setVar (a : Arena) (v : Nat) (st : VState) (c : Option Nat) : Arena :=
  a.set v (.var st c)

/-- The wrapping step of `Variable._update`: a rule that is already a
`Calculation` is kept as is; anything else (a bare variable node, or a
raw literal) becomes a fresh `Constant` node. -/
def wrapRule (a : Arena) (new_calculation : Term) : Arena × Nat :=
  if isCalcTerm a new_calculation then
    (a, match new_calculation with | .node i => i | .lit _ => 0)
  else
    mkConstant a new_calculation

/-- `Variable._update(new_calculation, new_state, yes_really)`.
The `assert(self.calculation is not None)` under `yes_really` becomes an
`Except.error`; the returned Bool records whether
`warnings.warn("Overriding calculation.")` fired. -/
def Variable_update (a : Arena) (v : Nat) (new_calculation : Term) (new_state : VState)
    (yes_really : Bool) : Except String (Arena × Bool) :=
  if yes_really && (calculationOf a v).isNone then
    .error "AssertionError: self.calculation is not None"
  else
    let warned := !yes_really && (calculationOf a v).isSome
    let wrapped := wrapRule a new_calculation
    .ok (setVar wrapped.1 v new_state (some wrapped.2), warned)

/-- `Variable.compute(new_calculation, yes_really)`. -/
def compute (a : Arena) (v : Nat) (new_calculation : Term) (yes_really : Bool) :
    Except String (Arena × Bool) :=
  Variable_update a v new_calculation .computed yes_really

/-- `Variable.evolve(new_calculation, yes_really)`. -/
def evolve (a : Arena) (v : Nat) (new_calculation : Term) (yes_really : Bool) :
    Except String (Arena × Bool) :=
  Variable_update a v new_calculation .evolving yes_really

/-- A `networkx.DiGraph`: nodes and edges as insertion-ordered
duplicate-free lists. -/
structure Graph where
  nodes : List Nat
  edges : List (Nat × Nat)
deriving DecidableEq, Repr

/-- `graph.add_node(i)`. -/
def Graph.addNode (g : Graph) (i : Nat) : Graph :=
  if i ∈ g.nodes then g else { g with nodes := g.nodes ++ [i] }

/-- `graph.add_edge(u, v)` (also inserts missing endpoints, `u` first). -/
def Graph.addEdge (g : Graph) (u v : Nat) : Graph :=
  if (u, v) ∈ ((g.addNode u).addNode v).edges then (g.addNode u).addNode v
  else { (g.addNode u).addNode v with
         edges := ((g.addNode u).addNode v).edges ++ [(u, v)] }

/-- The dependency loop of `classify_all` for a popped `Calculation`:
`for item in current.dependencies(): graph.add_edge(item, current);
if item not in seen: pending.append(item)`. -/
def depsFold (current : Nat) (seen : List Nat) (deps : List Nat)
    (g : Graph) (pending : List Nat) : Graph × List Nat :=
  deps.foldl
    (fun st item =>
      (st.1.addEdge item current,
       if item ∈ seen then st.2 else item :: st.2))
    (g, pending)

/-- The worklist of `classify_all`.  `pending` is kept with the Python
list's *end* (the next `pending.pop()`) at the head, so Python's
`append` is `cons` here; `seen` collects popped nodes.  Fuel bounds the
iteration; a `computed`/`evolving` variable with no stored rule (which
would make the Python code pass `None` to `add_edge`) also yields
`none`, since the construction API never produces that state. -/
def classifyLoop (a : Arena) (time : Nat) :
    Nat → Graph → List Nat → List Nat → Option Graph
  | 0, _, _, _ => none
  | fuel + 1, g, pending, seen =>
    match pending with
    | [] => some g
    | current :: rest =>
      let seen := current :: seen
      match a[current]? with
      | some (.expr _ terms) =>
        let step := depsFold current seen (dependencies terms) g rest
        classifyLoop a time fuel step.1 step.2 seen
      | some (.var st c) =>
        match st with
        | .free => classifyLoop a time fuel g rest seen
        | .computed =>
          match c with
          | some calc₀ =>
            classifyLoop a time fuel (g.addEdge calc₀ current)
              (if calc₀ ∈ seen then rest else calc₀ :: rest) seen
          | none => none
        | .evolving =>
          match c with
          | some calc₀ =>
            classifyLoop a time fuel (g.addEdge time current)
              (if calc₀ ∈ seen then rest else calc₀ :: rest) seen
          | none => none
      | none => none

/-- Is `n` free of incoming edges from the still-unsorted nodes? -/
def noIncoming (edges : List (Nat × Nat)) (remaining : List Nat) (n : Nat) : Bool :=
  edges.all fun e => !(e.2 = n && remaining.contains e.1)

/-- Kahn's algorithm: repeatedly remove a node with no incoming edge
from the remaining nodes (first such node in insertion order); `none`
when a cycle blocks completion. -/
def kahnLoop : Nat → List (Nat × Nat) → List Nat → List Nat → Option (List Nat)
  | 0, _, _, _ => none
  | fuel + 1, edges, remaining, acc =>
    match remaining with
    | [] => some acc.reverse
    | _ :: _ =>
      match remaining.find? (noIncoming edges remaining) with
      | some n => kahnLoop fuel edges (remaining.erase n) (n :: acc)
      | none => none

/-- `NX.topological_sort(graph)`: external collaborator, embedded as
Kahn's algorithm (any order consistent with the edges is acceptable
per the spec's tie-break remark). -/
def topological_sort (g : Graph) : Option (List Nat) :=
  kahnLoop (g.nodes.length + 1) g.edges g.nodes []

/-- One round of reachability expansion: add the target of every edge
whose source is already reached. -/
def reachStep (edges : List (Nat × Nat)) (r : List Nat) : List Nat :=
  edges.foldl (fun acc e => if e.1 ∈ acc ∧ e.2 ∉ acc then acc ++ [e.2] else acc) r

/-- Iterate `reachStep` a fixed number of times. -/
def reachIter (edges : List (Nat × Nat)) : Nat → List Nat → List Nat
  | 0, r => r
  | n + 1, r => reachIter edges n (reachStep edges r)

/-- The key set of `NX.single_source_shortest_path_length(graph, src)`:
all nodes reachable from `src`, inclusive (only membership in the
result is used by the source). -/
def reachableFrom (g : Graph) (src : Nat) : List Nat :=
  reachIter g.edges g.nodes.length [src]

/-- `classify_all(time, variables)`: build the dependency graph by
worklist, topologically sort it, and split the order into the
time-independent and time-dependent partitions (in that order).
The variable list is reversed because Python pops from the list's end. -/
def classify_all (a : Arena) (fuel : Nat) (time : Nat) (varIds : List Nat) :
    Option (List Nat × List Nat) :=
  (classifyLoop a time fuel (Graph.addNode { nodes := [], edges := [] } time)
      varIds.reverse []).bind fun g =>
    (topological_sort g).bind fun tsort =>
      some (tsort.filter (fun i => decide (i ∉ reachableFrom g time)),
            tsort.filter (fun i => decide (i ∈ reachableFrom g time)))

/-- The emitter's symbol table (`SymbolMap`): memoized store plus the
`itertools.count()` counter for the `'var%i'` pattern. -/
structure SymbolMap where
  store : List (Nat × String)
  count : Nat
deriving DecidableEq, Repr

/-- A fresh symbol table (`SymbolMap()`). -/
def SymbolMap.init : SymbolMap :=
  { store := [], count := 0 }

/-- `SymbolMap.representation(item)`: literals render as their literal
text; nodes get the memoized name, or a freshly minted `var%i`. -/
def SymbolMap.representation (m : SymbolMap) : Term → String × SymbolMap
  | .lit v => (toString v, m)
  | .node i =>
    match m.store.lookup i with
    | some s => (s, m)
    | none =>
      let next_name := "var" ++ Nat.repr m.count
      (next_name, { store := m.store ++ [(i, next_name)], count := m.count + 1 })

/-- `split_given_vars(time_deps, desired)`: bucket the ordered
name→variable list into (inputs, derived_constants, evolving,
time_dep), in the source's return order.  The defensive
`assert(variable not in time_deps)` on a free variable becomes `none`. -/
def split_given_vars (a : Arena) (time_deps : List Nat) :
    List (String × Nat) →
    Option (List (String × Nat) × List (String × Nat) × List (String × Nat) ×
            List (String × Nat))
  | [] => some ([], [], [], [])
  | (name, variable₀) :: rest => do
    let (inputs, derived_constants, evolving₀, time_dep) ←
      split_given_vars a time_deps rest
    if is_evolving a variable₀ then
      some (inputs, derived_constants, (name, variable₀) :: evolving₀, time_dep)
    else if is_calculated a variable₀ then
      if variable₀ ∈ time_deps then
        some (inputs, derived_constants, evolving₀, (name, variable₀) :: time_dep)
      else
        some (inputs, (name, variable₀) :: derived_constants, evolving₀, time_dep)
    else
      if variable₀ ∈ time_deps then none
      else some ((name, variable₀) :: inputs, derived_constants, evolving₀, time_dep)

/-- `Calculation.names(name_map)`: the representations of all terms,
left to right, threading the symbol table. -/
def namesOf (m : SymbolMap) : List Term → List String × SymbolMap
  | [] => ([], m)
  | t :: rest =>
    let (s, m) := m.representation t
    let (ss, m) := namesOf m rest
    (s :: ss, m)

/-- The text each `Calculation` subclass's `render` writes, given its
terms' names.  `Constant` is built with exactly one term and writes
that sole name. -/
def renderText (kind : CalcKind) (names : List String) : String :=
  match kind with
  | .constant => names.headD ""
  | .sum => String.intercalate " + " names
  | .multiply => String.intercalate " * " names
  | .difference => String.intercalate " - " names
  | .division => String.intercalate " / " names
  | .function function_name =>
    function_name ++ "(" ++ String.intercalate ", " names ++ ")"

/-- `item.render(target, representation)` for the expression node at
`i`: one `target` call writing the rendered text.  (Only `Calculation`
nodes are ever rendered by the emitters.) -/
def renderNode (a : Arena) (m : SymbolMap) (i : Nat) : String × SymbolMap :=
  match a[i]? with
  | some (.expr kind terms) =>
    let (ns, m) := namesOf m terms
    (renderText kind ns, m)
  | _ => ("", m)

/-- `_blat(target, pattern, iterable, representation)`: one
`const double %s = %s[%i];` load per enumerated entry. -/
def _blat (pattern : String) : SymbolMap → List (String × Nat) → Nat →
    List String × SymbolMap
  | m, [], _ => ([], m)
  | m, (_, variable₀) :: rest, ind =>
    let (r, m) := m.representation (.node variable₀)
    let (ls, m) := _blat pattern m rest (ind + 1)
    (("const double " ++ r ++ " = " ++ pattern ++ "[" ++ Nat.repr ind ++ "];\n") :: ls, m)

/-- The definition loop of `write_constfun` over the time-independent
node list: a non-free variable gets `const double <var> = <rule>;`, a
standalone `Calculation` gets its rendered definition (emitted as the
source's three separate `target` calls); anything else is skipped. -/
def constLoop (a : Arena) : SymbolMap → List Nat → List String × SymbolMap
  | m, [] => ([], m)
  | m, item :: rest =>
    match a[item]? with
    | some (.var st c) =>
      if st ≠ .free then
        let (r₁, m) := m.representation (.node item)
        let (r₂, m) :=
          match c with
          | some calc₀ => m.representation (.node calc₀)
          | none => ("", m)
        let (ls, m) := constLoop a m rest
        (("const double " ++ r₁ ++ " = " ++ r₂ ++ ";\n") :: ls, m)
      else
        constLoop a m rest
    | some (.expr _ _) =>
      let (r, m) := m.representation (.node item)
      let (body, m) := renderNode a m item
      let (ls, m) := constLoop a m rest
      (("const double " ++ r ++ " = ") :: body :: ";\n" :: ls, m)
    | none => constLoop a m rest

/-- The trailing store loop of `write_constfun`:
`constants[%i] = %s;` per derived constant. -/
def storeConstants : SymbolMap → List (String × Nat) → Nat → List String × SymbolMap
  | m, [], _ => ([], m)
  | m, (_, var₀) :: rest, ind =>
    let (r, m) := m.representation (.node var₀)
    let (ls, m) := storeConstants m rest (ind + 1)
    (("constants[" ++ Nat.repr ind ++ "] = " ++ r ++ ";\n") :: ls, m)

/-- `write_constfun(target, representation, input_vars,
derived_constants, constants)`: the emitted `compute` function, as the
list of strings passed to `target`. -/
def write_constfun (a : Arena) (m : SymbolMap)
    (input_vars derived_constants : List (String × Nat)) (constants : List Nat) :
    List String × SymbolMap :=
  let header := "void compute(double* constants,\n             const double* input) \x7b\n"
  let (l₁, m) := _blat "input" m input_vars 0
  let (l₂, m) := constLoop a m constants
  let (l₃, m) := storeConstants m derived_constants 0
  (header :: l₁ ++ l₂ ++ l₃ ++ ["\x7d\n"], m)

/-- The recomputation loop of `write_time_common` over the
time-dependent node list: `time` itself is skipped; a non-evolving
variable gets `const double <var> = <rule>;`; a standalone
`Calculation` gets its rendered definition. -/
def timeDepLoop (a : Arena) (time : Nat) : SymbolMap → List Nat → List String × SymbolMap
  | m, [] => ([], m)
  | m, item :: rest =>
    if item = time then timeDepLoop a time m rest
    else
      match a[item]? with
      | some (.var st c) =>
        if st ≠ .evolving then
          let (r₁, m) := m.representation (.node item)
          let (r₂, m) :=
            match c with
            | some calc₀ => m.representation (.node calc₀)
            | none => ("", m)
          let (ls, m) := timeDepLoop a time m rest
          (("const double " ++ r₁ ++ " = " ++ r₂ ++ ";\n") :: ls, m)
        else
          timeDepLoop a time m rest
      | some (.expr _ _) =>
        let (r, m) := m.representation (.node item)
        let (body, m) := renderNode a m item
        let (ls, m) := timeDepLoop a time m rest
        (("const double " ++ r ++ " = ") :: body :: ";\n" :: ls, m)
      | none => timeDepLoop a time m rest

/-- The trailing store loop of `write_time_common`:
`%s[%i] = %s;` with the representation of each target variable's
`calculation` object. -/
def storeTargets (arr_name : String) (a : Arena) :
    SymbolMap → List (String × Nat) → Nat → List String × SymbolMap
  | m, [], _ => ([], m)
  | m, (_, var₀) :: rest, ind =>
    let (r, m) :=
      match calculationOf a var₀ with
      | some calc₀ => m.representation (.node calc₀)
      | none => ("", m)
    let (ls, m) := storeTargets arr_name a m rest (ind + 1)
    ((arr_name ++ "[" ++ Nat.repr ind ++ "] = " ++ r ++ ";\n") :: ls, m)

/-- `write_time_common(target, representation, time, input_vars,
derived_constants, state, to_stuff, time_deps, func_name, arr_name)`:
the shared emission template of `odefun` and `timedepfun`. -/
def write_time_common (a : Arena) (m : SymbolMap) (time : Nat)
    (input_vars derived_constants state : List (String × Nat))
    (to_stuff : List (String × Nat)) (time_deps : List Nat)
    (func_name arr_name : String) : List String × SymbolMap :=
  let header := "void " ++ func_name ++ "(double* " ++ arr_name ++
    ", const double* time,\n        const double* state, const double* input) \x7b\n"
  let constsPtr := "const double *constants = input + " ++
    Nat.repr input_vars.length ++ ";\n"
  let (rt, m) := m.representation (.node time)
  let timeLoad := "const double " ++ rt ++ " = *time;\n"
  let (l₁, m) := _blat "input" m input_vars 0
  let (l₂, m) := _blat "constants" m derived_constants 0
  let (l₃, m) := _blat "state" m state 0
  let (l₄, m) := timeDepLoop a time m time_deps
  let (l₅, m) := storeTargets arr_name a m to_stuff 0
  (header :: constsPtr :: timeLoad :: (l₁ ++ l₂ ++ l₃ ++ l₄ ++ l₅ ++ ["\x7d\n"]), m)

/-- `write_odefun`: `write_time_common` targeting the evolving state,
as `odefun` writing `rate`. -/
def write_odefun (a : Arena) (m : SymbolMap) (time : Nat)
    (input_vars derived_constants state : List (String × Nat))
    (time_deps : List Nat) : List String × SymbolMap :=
  write_time_common a m time input_vars derived_constants state
    state time_deps "odefun" "rate"

/-- `write_timedep`: `write_time_common` targeting the time-dependent
outputs, as `timedepfun` writing `timedeps`. -/
def write_timedep (a : Arena) (m : SymbolMap) (time : Nat)
    (input_vars derived_constants state time_dep_vars : List (String × Nat))
    (time_deps : List Nat) : List String × SymbolMap :=
  write_time_common a m time input_vars derived_constants state
    time_dep_vars time_deps "timedepfun" "timedeps"

/-- One key's block in `render_names`: the four `target` calls. -/
def render_names_one (key : String) (entries : List (String × Nat)) : List String :=
  ["const int num_" ++ key ++ " = " ++ Nat.repr entries.length ++ ";\n",
   "const char* " ++ key ++ "[] = \x7b\n",
   String.intercalate ",\n" (entries.map fun p => "\x22" ++ p.1 ++ "\x22"),
   ",0\n\x7d;\n\n"]

/-- `render_names(target, **kwargs)` at `ODESet.render`'s call site:
`sorted(kwargs)` iterates constants, inputs, state, timedep. -/
def render_names (input_vars derived_constants state_vars time_dep_vars :
    List (String × Nat)) : List String :=
  render_names_one "constants" derived_constants ++
  render_names_one "inputs" input_vars ++
  render_names_one "state" state_vars ++
  render_names_one "timedep" time_dep_vars

/-- `ODESet`: the owning collection; `self.time = Variable()` plus the
insertion-ordered name→variable dictionary. -/
structure ODESet where
  arena : Arena
  time : Nat
  variables₀ : List (String × Nat)
deriving DecidableEq, Repr

/-- `ODESet.__init__`. -/
def ODESet.init : ODESet :=
  { arena := [Entry.var .free none], time := 0, variables₀ := [] }

/-- `ODESet.new(name)`: raises on a duplicate name, otherwise records a
fresh free variable under `name`.  (The Python non-string-name check is
subsumed by typing here.) -/
def ODESet.new (s : ODESet) (name : String) : Except String (ODESet × Nat) :=
  if (s.variables₀.lookup name).isSome then
    .error ("Duplicate variable name : " ++ name)
  else
    let (a, vid) := alloc s.arena (.var .free none)
    .ok ({ s with arena := a, variables₀ := s.variables₀ ++ [(name, vid)] }, vid)

/-- `ODESet.render(target)` with `reorder=None`: classify, split, then
emit the name tables and the three functions, each with a fresh
`SymbolMap`. -/
def ODESet.render (s : ODESet) (fuel : Nat) : Option (List String) :=
  match classify_all s.arena fuel s.time (s.variables₀.map Prod.snd) with
  | none => none
  | some (constants, time_deps) =>
    match split_given_vars s.arena time_deps s.variables₀ with
    | none => none
    | some (input_vars, derived_constants, state_vars, time_dep_vars) =>
      some (render_names input_vars derived_constants state_vars time_dep_vars ++
        (write_constfun s.arena SymbolMap.init input_vars derived_constants
          constants).1 ++
        (write_odefun s.arena SymbolMap.init s.time input_vars derived_constants
          state_vars time_deps).1 ++
        (write_timedep s.arena SymbolMap.init s.time input_vars derived_constants
          state_vars time_dep_vars time_deps).1)

/-- A `Compartment`'s own fields: its qualified name (`None` for the
root) and the insertion-ordered child-name list.  Child payloads
(variable ids / sub-compartments) are recorded as `ChildRef`; the
shared `odeset` is threaded separately. -/
inductive ChildRef
  | variable₀ (id : Nat)
  | compartment
deriving DecidableEq, Repr

/-- See `ChildRef`. -/
structure Compartment where
  name : Option String
  children : List (String × ChildRef)
deriving DecidableEq, Repr

/-- `Compartment._make_new_name(new_name)`: raises on a clash with an
existing child, else underscore-joins the compartment's qualified name
with the new local name. -/
def Compartment._make_new_name (c : Compartment) (new_name : String) :
    Except String String :=
  if (c.children.lookup new_name).isSome then
    .error "already extant name"
  else
    match c.name with
    | none => .ok new_name
    | some n => .ok (n ++ "_" ++ new_name)

/-- `Compartment.new_variable(name)`. -/
def Compartment.new_variable (c : Compartment) (s : ODESet) (name : String) :
    Except String (Compartment × ODESet × Nat) := do
  let full_name ← c._make_new_name name
  let (s, vid) ← s.new full_name
  .ok ({ c with children := c.children ++ [(name, .variable₀ vid)] }, s, vid)

/-- `Compartment.new_compartment(name)`: the fresh sub-compartment
carries the qualified name and shares the odeset. -/
def Compartment.new_compartment (c : Compartment) (name : String) :
    Except String (Compartment × Compartment) := do
  let full_name ← c._make_new_name name
  .ok ({ c with children := c.children ++ [(name, .compartment)] },
       { name := some full_name, children := [] })

/-! ### Helper notions used only by the statements and proofs -/

/-- Does this emitted statement define the symbol `sym` (as a
`const double sym = ...` definition or array load)? -/
def definesSymbol (line sym : String) : Bool :=
  ("const double " ++ sym ++ " = ").data.isPrefixOf line.data

/-- Numeric value of a decimal digit character. -/
def charVal (c : Char) : Nat := c.toNat - 48

/-- Value of a most-significant-first decimal digit string. -/
def listVal (l : List Char) : Nat :=
  l.foldl (fun acc c => 10 * acc + charVal c) 0

/-- Value of a decimal string. -/
def strVal (s : String) : Nat := listVal s.data

/-- The state-machine invariant of an arena: a variable is `free`
exactly when it holds no rule, and a held rule always refers to a
`Calculation` entry. -/
def WFA (a : Arena) : Prop :=
  ∀ (i : Nat) (st : VState) (c : Option Nat), a[i]? = some (Entry.var st c) →
    (st = VState.free ↔ c = none) ∧
    ∀ calc₀, c = some calc₀ → isCalcEntry a calc₀ = true

/-- The well-formedness invariant of a symbol table: the memo's keys
are duplicate-free, and each stored name is `var%k` for a distinct
counter value `k` below the current counter. -/
def SymbolMap.WF (m : SymbolMap) : Prop :=
  (m.store.map Prod.fst).Nodup ∧
  (∀ p ∈ m.store, ∃ k, k < m.count ∧ p.2 = "var" ++ Nat.repr k) ∧
  (m.store.map Prod.snd).Nodup

/-- Every edge of the classifier graph points *at* a `Calculation`
node or a computed/evolving variable (never at a free variable). -/
def EdgeTargetsOK (a : Arena) (g : Graph) : Prop :=
  ∀ e ∈ g.edges,
    isCalcEntry a e.2 = true ∨ is_calculated a e.2 = true ∨ is_evolving a e.2 = true

/-- Both endpoints of every edge are recorded graph nodes (as
`add_edge` guarantees). -/
def EdgesInNodes (g : Graph) : Prop :=
  ∀ e ∈ g.edges, e.1 ∈ g.nodes ∧ e.2 ∈ g.nodes

/-! ### Concrete models -/

/-- Failing input for the definition-before-use claim: `x` free,
`z.evolve(x)` — the rule is the bare variable `x`, so the stored rule
is the wrapped node `Constant(x)`, which is time-independent. -/
def c1Build : Except String ODESet := do
  let s := ODESet.init
  let (s, x) ← s.new "x"
  let (s, z) ← s.new "z"
  let (a, _) ← evolve s.arena z (.node x) false
  .ok { s with arena := a }

/-- The model of `c1Build` (ids: time 0, x 1, z 2, Constant(x) 3). -/
def c1Set : ODESet := c1Build.toOption.getD ODESet.init

/-- `classify_all` output on the `c1Set` model. -/
def c1Classified : List Nat × List Nat :=
  (classify_all c1Set.arena 100 c1Set.time (c1Set.variables₀.map Prod.snd)).getD ([], [])

/-- `split_given_vars` output on the `c1Set` model. -/
def c1Split :
    List (String × Nat) × List (String × Nat) × List (String × Nat) ×
    List (String × Nat) :=
  (split_given_vars c1Set.arena c1Classified.2 c1Set.variables₀).getD ([], [], [], [])

/-- The `odefun` emission (statement list) on the `c1Set` model, at the
arguments `ODESet.render` passes. -/
def c1Odefun : List String :=
  (write_odefun c1Set.arena SymbolMap.init c1Set.time c1Split.1 c1Split.2.1
    c1Split.2.2.1 c1Classified.2).1

/-- The round-trip scenario model: `x` free, `y.compute(x * constant(2))`,
`z.evolve(y)`. -/
def c3Build : Except String ODESet := do
  let s := ODESet.init
  let (s, x) ← s.new "x"
  let (s, y) ← s.new "y"
  let (s, z) ← s.new "z"
  let (a, c2) := mkConstant s.arena (.lit 2)
  let (a, mult) := mkMultiply a (.node x) (.node c2)
  let (a, _) ← compute a y (.node mult) false
  let (a, _) ← evolve a z (.node y) false
  .ok { s with arena := a }

/-- The model of `c3Build` (ids: time 0, x 1, y 2, z 3, Constant(2) 4,
Multiply 5, Constant(y) 6). -/
def c3Set : ODESet := c3Build.toOption.getD ODESet.init

/-- `classify_all` output on the `c3Set` model. -/
def c3Classified : List Nat × List Nat :=
  (classify_all c3Set.arena 100 c3Set.time (c3Set.variables₀.map Prod.snd)).getD ([], [])

/-- `split_given_vars` output on the `c3Set` model. -/
def c3Split :
    List (String × Nat) × List (String × Nat) × List (String × Nat) ×
    List (String × Nat) :=
  (split_given_vars c3Set.arena c3Classified.2 c3Set.variables₀).getD ([], [], [], [])

/-- The `compute` emission (statements and final symbol table) on the
`c3Set` model, at the arguments `ODESet.render` passes. -/
def c3Constfun : List String × SymbolMap :=
  write_constfun c3Set.arena SymbolMap.init c3Split.1 c3Split.2.1 c3Classified.1

/-- The `odefun` emission (statements and final symbol table) on the
`c3Set` model, at the arguments `ODESet.render` passes. -/
def c3Odefun : List String × SymbolMap :=
  write_odefun c3Set.arena SymbolMap.init c3Set.time c3Split.1 c3Split.2.1
    c3Split.2.2.1 c3Classified.2

/-! ### Claim theorems (concrete models) -/

/-- C1: evaluated at the failing input `{x free, z.evolve(x)}`, the
emitted `odefun` writes `rate[0] = var3;` while no earlier (indeed no)
statement of `odefun` defines `var3` — the symbol of the wrapped rule
node `Constant(x)`, which is time-independent and therefore defined
only in `compute`.  This exhibits the definition-before-use violation:
the code is at odds with the claim (and with producing compilable C). -/
theorem C1_odefun_uses_undefined_symbol :
    c1Odefun =
      ["void odefun(double* rate, const double* time,\n        const double* state, const double* input) \x7b\n",
       "const double *constants = input + 1;\n",
       "const double var0 = *time;\n",
       "const double var1 = input[0];\n",
       "const double var2 = state[0];\n",
       "rate[0] = var3;\n",
       "\x7d\n"] ∧
    "rate[0] = var3;\n" ∈ c1Odefun ∧
    c1Odefun.all (fun l => !definesSymbol l "var3") = true := by
  refine ⟨by decide, by decide, by decide⟩

/-- C2 counterexample: in the model `{x free, z.evolve(x)}` the
evolving variable `z` (id 2) *is* a member of the time-dependent
partition returned by `classify_all` (it is directly reachable from
time), contradicting the claim that it never is. -/
theorem C2_counterexample_evolving_is_time_dependent :
    is_evolving c1Set.arena 2 = true ∧
    classify_all c1Set.arena 100 c1Set.time (c1Set.variables₀.map Prod.snd) =
      some ([1, 3], [0, 2]) ∧
    2 ∈ [0, 2] := by
  refine ⟨by decide, by decide, by decide⟩

/-- C3 counterexample: on the round-trip model the emitted `compute`
never produces the statement `constants[0] = input[0] * 2;` (it stores
`y`'s symbol instead of an inlined expression), and `odefun`'s rate
statement uses the symbol of the wrapped rule node `Constant(y)`
(`var4`), not `y`'s symbol (`var2` in `odefun`'s table) — and `var4`
is not defined earlier in `odefun`. -/
theorem C3_counterexample_roundtrip_emission :
    "constants[0] = input[0] * 2;\n" ∉ c3Constfun.1 ∧
    ¬ List.IsInfix "constants[0] = input[0] * 2;".data
        (String.join c3Constfun.1).data ∧
    c3Odefun.2.store.lookup 2 = some "var2" ∧
    "rate[0] = var2;\n" ∉ c3Odefun.1 ∧
    "rate[0] = var4;\n" ∈ c3Odefun.1 ∧
    c3Odefun.1.all (fun l => !definesSymbol l "var4") = true := by
  refine ⟨by decide, by decide, by decide, by decide, by decide, by decide⟩

/-- C3 amended: on the round-trip model, classification is as claimed
(`x` an input, `y` a derived constant, `z` evolving); `compute`, after
loading `x`, defines one symbol per time-independent node and finally
stores `constants[0] = var3;` where `var3` is `y`'s symbol, defined by
an earlier statement of `compute`; `odefun` emits `rate[0] = var4;`
where `var4` is the symbol of `z`'s stored rule node `Constant(y)` —
which, being time-independent, is *not* defined earlier in `odefun`. -/
theorem C3_amended_roundtrip_emission :
    c3Split = ([("x", 1)], [("y", 2)], [("z", 3)], []) ∧
    c3Constfun.1 =
      ["void compute(double* constants,\n             const double* input) \x7b\n",
       "const double var0 = input[0];\n",
       "const double var1 = ", "2", ";\n",
       "const double var2 = ", "var0 * var1", ";\n",
       "const double var3 = var2;\n",
       "const double var4 = ", "var3", ";\n",
       "constants[0] = var3;\n",
       "\x7d\n"] ∧
    c3Constfun.2.store.lookup 2 = some "var3" ∧
    (c3Constfun.1.takeWhile (fun l => l ≠ "constants[0] = var3;\n")).any
      (fun l => definesSymbol l "var3") = true ∧
    calculationOf c3Set.arena 3 = some 6 ∧
    c3Odefun.2.store.lookup 6 = some "var4" ∧
    "rate[0] = var4;\n" ∈ c3Odefun.1 ∧
    c3Odefun.1.all (fun l => !definesSymbol l "var4") = true := by
  exact ⟨by decide, by decide, by decide, by decide, by decide, by decide,
    by decide, by decide⟩

/-- C4 counterexample: within the single emission pass
`c3Set.render` (which completes), the `compute` writer's symbol table
maps `x` (id 1) to `var0` while the `odefun` writer's table — a fresh
`SymbolMap`, as `ODESet.render` constructs one per emitted function —
maps `x` to `var1`; moreover the distinct identities `x` (in `compute`)
and `time` (in `odefun`) share the name `var0`.  Symbols are therefore
neither unique per identity nor stable across the three emitted
functions of one pass. -/
theorem C4_counterexample_symbols_not_stable_across_functions :
    (c3Set.render 100).isSome = true ∧
    c3Constfun.2.store.lookup 1 = some "var0" ∧
    c3Odefun.2.store.lookup 1 = some "var1" ∧
    c3Odefun.2.store.lookup 0 = some "var0" := by
  refine ⟨by decide, by decide, by decide, by decide⟩

/-! ### Decimal rendering round-trip: `Nat.repr` is injective -/

theorem charVal_digitChar (m : Nat) (h : m < 10) :
    charVal (Nat.digitChar m) = m := by
  interval_cases m <;> rfl

theorem toDigitsCore_append10 (f : Nat) :
    ∀ (n : Nat) (ds : List Char),
      Nat.toDigitsCore 10 f n ds = Nat.toDigitsCore 10 f n [] ++ ds := by
  induction f with
  | zero => intro n ds; simp [Nat.toDigitsCore]
  | succ f ih =>
    intro n ds
    simp only [Nat.toDigitsCore]
    by_cases h : n / 10 = 0
    · simp [h]
    · simp only [h, if_false]
      rw [ih (n / 10) (Nat.digitChar (n % 10) :: ds),
          ih (n / 10) [Nat.digitChar (n % 10)]]
      simp

theorem listVal_append_digit (l : List Char) (c : Char) :
    listVal (l ++ [c]) = 10 * listVal l + charVal c := by
  simp [listVal, List.foldl_append]

theorem toDigitsCore10_succ (f n : Nat) :
    Nat.toDigitsCore 10 (f + 1) n [] =
      if n / 10 = 0 then [Nat.digitChar (n % 10)]
      else Nat.toDigitsCore 10 f (n / 10) [Nat.digitChar (n % 10)] := by
  rw [Nat.toDigitsCore]

theorem listVal_toDigitsCore10 (f : Nat) :
    ∀ n : Nat, n ≤ f → listVal (Nat.toDigitsCore 10 (f + 1) n []) = n := by
  induction f with
  | zero =>
    intro n hn
    obtain rfl : n = 0 := Nat.le_zero.mp hn
    rfl
  | succ f ih =>
    intro n hn
    rw [toDigitsCore10_succ]
    by_cases h : n / 10 = 0
    · have hlt : n < 10 := (Nat.div_eq_zero_iff (by norm_num)).mp h
      rw [if_pos h]
      have hl : listVal [Nat.digitChar (n % 10)] = charVal (Nat.digitChar (n % 10)) := by
        simp [listVal]
      rw [hl, charVal_digitChar (n % 10) (Nat.mod_lt n (by norm_num)),
          Nat.mod_eq_of_lt hlt]
    · have hpos : 0 < n := by
        rcases Nat.eq_zero_or_pos n with rfl | hp
        · simp at h
        · exact hp
      have hdiv : n / 10 ≤ f := by
        have h1 : n / 10 < n := Nat.div_lt_self hpos (by norm_num)
        omega
      rw [if_neg h, toDigitsCore_append10, listVal_append_digit, ih (n / 10) hdiv,
          charVal_digitChar (n % 10) (Nat.mod_lt n (by norm_num))]
      exact Nat.div_add_mod n 10

theorem strVal_repr (n : Nat) : strVal (Nat.repr n) = n := by
  have : (Nat.repr n).data = Nat.toDigitsCore 10 (n + 1) n [] := rfl
  rw [strVal, this]
  exact listVal_toDigitsCore10 n n (Nat.le_refl n)

theorem Nat_repr_injective {m n : Nat} (h : Nat.repr m = Nat.repr n) : m = n := by
  have := congrArg strVal h
  rwa [strVal_repr, strVal_repr] at this

theorem var_name_injective {m n : Nat}
    (h : "var" ++ Nat.repr m = "var" ++ Nat.repr n) : m = n := by
  apply Nat_repr_injective
  have hd := congrArg String.data h
  simp only [String.data_append] at hd
  have := List.append_cancel_left hd
  cases hm : Nat.repr m with
  | mk dm =>
    cases hn : Nat.repr n with
    | mk dn =>
      rw [hm, hn] at this
      simpa [hm, hn] using congrArg String.mk this

/-! ### `List.lookup` bridges -/

theorem lookup_mem {l : List (Nat × String)} {k : Nat} {v : String}
    (h : l.lookup k = some v) : (k, v) ∈ l := by
  rcases List.lookup_eq_some_iff.mp h with ⟨l₁, l₂, rfl, -⟩
  exact List.mem_append.mpr (Or.inr (List.mem_cons_self _ _))

theorem mem_lookup {l : List (Nat × String)} {k : Nat} {v : String}
    (hnd : (l.map Prod.fst).Nodup) (h : (k, v) ∈ l) : l.lookup k = some v := by
  induction l with
  | nil => simp at h
  | cons p rest ih =>
    obtain ⟨k', v'⟩ := p
    simp only [List.map_cons, List.nodup_cons] at hnd
    rcases List.mem_cons.mp h with he | hmem
    · cases he
      exact List.lookup_cons_self
    · have hk : ¬(k == k') = true := by
        simp only [beq_iff_eq]
        intro he
        subst he
        exact hnd.1 (List.mem_map.mpr ⟨(k, v), hmem, rfl⟩)
      rw [List.lookup_cons]
      simp only [Bool.not_eq_true] at hk
      rw [hk]
      exact ih hnd.2 hmem

/-! ### Symbol-table invariants -/

theorem snd_nodup_key_eq {l : List (Nat × String)} {i j : Nat} {x : String}
    (hnd : (l.map Prod.snd).Nodup) (hi : (i, x) ∈ l) (hj : (j, x) ∈ l) : i = j := by
  induction l with
  | nil => simp at hi
  | cons p rest ih =>
    simp only [List.map_cons, List.nodup_cons] at hnd
    rcases List.mem_cons.mp hi with he₁ | hm₁ <;>
      rcases List.mem_cons.mp hj with he₂ | hm₂
    · rw [← he₂] at he₁
      exact congrArg Prod.fst he₁
    · exfalso
      apply hnd.1
      have : p.2 = x := congrArg Prod.snd he₁.symm
      rw [this]
      exact List.mem_map.mpr ⟨(j, x), hm₂, rfl⟩
    · exfalso
      apply hnd.1
      have : p.2 = x := congrArg Prod.snd he₂.symm
      rw [this]
      exact List.mem_map.mpr ⟨(i, x), hm₁, rfl⟩
    · exact ih hnd.2 hm₁ hm₂

theorem representation_lit (m : SymbolMap) (v : Int) :
    m.representation (.lit v) = (toString v, m) := rfl

theorem representation_of_mem {m : SymbolMap} {i : Nat} {s : String}
    (hwf : m.WF) (h : (i, s) ∈ m.store) :
    m.representation (.node i) = (s, m) := by
  have : m.store.lookup i = some s := mem_lookup hwf.1 h
  simp [SymbolMap.representation, this]

theorem representation_fresh {m : SymbolMap} {i : Nat}
    (h : m.store.lookup i = none) :
    m.representation (.node i) =
      ("var" ++ Nat.repr m.count,
       { store := m.store ++ [(i, "var" ++ Nat.repr m.count)], count := m.count + 1 }) := by
  simp [SymbolMap.representation, h]

theorem fresh_name_not_stored {m : SymbolMap}
    (hwf : m.WF) {p : Nat × String} (hp : p ∈ m.store) :
    p.2 ≠ "var" ++ Nat.repr m.count := by
  intro he
  rcases hwf.2.1 p hp with ⟨k, hk, hs⟩
  rw [hs] at he
  exact absurd (var_name_injective he) (Nat.ne_of_lt hk)

theorem representation_WF {m : SymbolMap} (hwf : m.WF) (t : Term) :
    (m.representation t).2.WF ∧ ∀ p ∈ m.store, p ∈ (m.representation t).2.store := by
  match t with
  | .lit v => exact ⟨hwf, fun p hp => hp⟩
  | .node i =>
    cases hl : m.store.lookup i with
    | some s =>
      have : m.representation (.node i) = (s, m) := by
        simp [SymbolMap.representation, hl]
      rw [this]
      exact ⟨hwf, fun p hp => hp⟩
    | none =>
      rw [representation_fresh hl]
      have hnotkey : i ∉ m.store.map Prod.fst := by
        intro hmem
        rcases List.mem_map.mp hmem with ⟨p, hp, hfst⟩
        have := List.lookup_eq_none_iff.mp hl p hp
        rw [hfst] at this
        simp at this
      refine ⟨⟨?_, ?_, ?_⟩, fun p hp => List.mem_append_left _ hp⟩
      · rw [List.map_append]
        simp only [List.map_cons, List.map_nil]
        rw [List.nodup_append]
        exact ⟨hwf.1, List.nodup_singleton i, by simpa using hnotkey⟩
      · intro p hp
        rcases List.mem_append.mp hp with hold | hnew
        · rcases hwf.2.1 p hold with ⟨k, hk, hs⟩
          exact ⟨k, Nat.lt_succ_of_lt hk, hs⟩
        · rcases List.mem_singleton.mp hnew with rfl
          exact ⟨m.count, Nat.lt_succ_self _, rfl⟩
      · rw [List.map_append]
        simp only [List.map_cons, List.map_nil]
        rw [List.nodup_append]
        refine ⟨hwf.2.2, List.nodup_singleton _, ?_⟩
        intro x hx
        rcases List.mem_map.mp hx with ⟨p, hp, hsnd⟩
        simp only [List.mem_singleton]
        intro he
        exact fresh_name_not_stored hwf hp (by rw [hsnd, he])

theorem stored_name_form {m : SymbolMap} (hwf : m.WF) {i : Nat} {s : String}
    (h : (i, s) ∈ m.store) : ∃ k, k < m.count ∧ s = "var" ++ Nat.repr k :=
  hwf.2.1 (i, s) h

theorem representation_distinct {m : SymbolMap} (hwf : m.WF)
    {i j : Nat} {si sj : String} {mi mj : SymbolMap} (hne : i ≠ j)
    (hi : m.representation (.node i) = (si, mi))
    (hj : mi.representation (.node j) = (sj, mj)) : si ≠ sj := by
  cases hli : m.store.lookup i with
  | some s =>
    have heq : m.representation (.node i) = (s, m) := by
      simp [SymbolMap.representation, hli]
    rw [heq] at hi
    have hsi : si = s := (congrArg Prod.fst hi).symm
    have hmi : mi = m := (congrArg Prod.snd hi).symm
    have hmemi : (i, s) ∈ m.store := lookup_mem hli
    rw [hmi] at hj
    cases hlj : m.store.lookup j with
    | some s' =>
      have heq' : m.representation (.node j) = (s', m) := by
        simp [SymbolMap.representation, hlj]
      rw [heq'] at hj
      have hsj : sj = s' := (congrArg Prod.fst hj).symm
      rw [hsi, hsj]
      intro he
      apply hne
      exact snd_nodup_key_eq hwf.2.2 hmemi (he ▸ lookup_mem hlj)
    | none =>
      rw [representation_fresh hlj] at hj
      have hsj : sj = "var" ++ Nat.repr m.count := (congrArg Prod.fst hj).symm
      rw [hsi, hsj]
      exact fresh_name_not_stored hwf hmemi
  | none =>
    rw [representation_fresh hli] at hi
    have hsi : si = "var" ++ Nat.repr m.count := (congrArg Prod.fst hi).symm
    have hmi : mi = { store := m.store ++ [(i, "var" ++ Nat.repr m.count)],
                      count := m.count + 1 } := (congrArg Prod.snd hi).symm
    rw [hmi] at hj
    cases hlj : (m.store ++ [(i, "var" ++ Nat.repr m.count)]).lookup j with
    | some s' =>
      have heq' : SymbolMap.representation
          { store := m.store ++ [(i, "var" ++ Nat.repr m.count)],
            count := m.count + 1 } (.node j) =
          (s', { store := m.store ++ [(i, "var" ++ Nat.repr m.count)],
                 count := m.count + 1 }) := by
        simp [SymbolMap.representation, hlj]
      rw [heq'] at hj
      have hsj : sj = s' := (congrArg Prod.fst hj).symm
      have hmemj : (j, s') ∈ m.store ++ [(i, "var" ++ Nat.repr m.count)] :=
        lookup_mem hlj
      rcases List.mem_append.mp hmemj with hold | hnew
      · rcases stored_name_form hwf hold with ⟨k, hk, hs⟩
        rw [hsi, hsj, hs]
        intro he
        exact absurd (var_name_injective he.symm) (Nat.ne_of_lt hk)
      · have : j = i := congrArg Prod.fst (List.mem_singleton.mp hnew)
        exact absurd this.symm hne
    | none =>
      rw [representation_fresh hlj] at hj
      have hsj : sj = "var" ++ Nat.repr (m.count + 1) := (congrArg Prod.fst hj).symm
      rw [hsi, hsj]
      intro he
      exact absurd (var_name_injective he) (Nat.ne_of_lt (Nat.lt_succ_self _))

/-- C4 amended: the symbol-table guarantees hold per `SymbolMap`
instance — i.e. per emitted function, since `ODESet.render` constructs
a fresh table for each of the three writers (see the counterexample
for cross-function instability).  For every well-formed table: a
numeric literal renders as its literal text and the table is left
untouched; every lookup preserves well-formedness and existing
associations; a stored identity always yields its stored name with no
change; and two distinct identities never receive the same name. -/
theorem C4_amended_symbols_per_symbol_map (m : SymbolMap) (hwf : m.WF) :
    (∀ v : Int, m.representation (.lit v) = (toString v, m)) ∧
    (∀ t : Term, (m.representation t).2.WF ∧
      ∀ p ∈ m.store, p ∈ (m.representation t).2.store) ∧
    (∀ (i : Nat) (s : String), (i, s) ∈ m.store →
      m.representation (.node i) = (s, m)) ∧
    (∀ (i j : Nat) (si sj : String) (mi mj : SymbolMap), i ≠ j →
      m.representation (.node i) = (si, mi) →
      mi.representation (.node j) = (sj, mj) → si ≠ sj) := by
  refine ⟨representation_lit m, fun t => representation_WF hwf t,
    fun i s h => representation_of_mem hwf h,
    fun i j si sj mi mj hne hi hj => representation_distinct hwf hne hi hj⟩

/-- Witness for the amended C4 theorem: applied to the fresh table, the
identities 0 and 1 receive the distinct names `var0` and `var1`. -/
theorem C4_amended_symbols_witness : ("var0" : String) ≠ "var1" :=
  (C4_amended_symbols_per_symbol_map SymbolMap.init
      ⟨List.nodup_nil, by intro p hp; simp [SymbolMap.init] at hp,
       List.nodup_nil⟩).2.2.2 0 1 "var0" "var1"
    { store := [(0, "var0")], count := 1 }
    { store := [(0, "var0"), (1, "var1")], count := 2 }
    (by decide) (by decide) (by decide)

/-! ### The four-way bucket split -/

theorem split_eq_filters (a : Arena) (td : List Nat) :
    ∀ (desired : List (String × Nat)) i d e t,
      split_given_vars a td desired = some (i, d, e, t) →
      i = desired.filter (fun p => !is_evolving a p.2 && !is_calculated a p.2) ∧
      d = desired.filter
        (fun p => !is_evolving a p.2 && is_calculated a p.2 && !decide (p.2 ∈ td)) ∧
      e = desired.filter (fun p => is_evolving a p.2) ∧
      t = desired.filter
        (fun p => !is_evolving a p.2 && is_calculated a p.2 && decide (p.2 ∈ td)) := by
  intro desired
  induction desired with
  | nil =>
    intro i d e t h
    simp only [split_given_vars, Option.some.injEq] at h
    obtain ⟨rfl, rfl, rfl, rfl⟩ := h
    simp
  | cons p rest ih =>
    intro i d e t h
    obtain ⟨name, v⟩ := p
    rw [split_given_vars] at h
    cases hrest : split_given_vars a td rest with
    | none => rw [hrest] at h; simp at h
    | some q =>
      obtain ⟨i', d', e', t'⟩ := q
      rw [hrest] at h
      simp only [Option.bind_eq_bind, Option.some_bind] at h
      obtain ⟨hi', hd', he', ht'⟩ := ih i' d' e' t' hrest
      by_cases hev : is_evolving a v = true
      · simp only [hev, if_true, Option.some.injEq] at h
        obtain ⟨rfl, rfl, rfl, rfl⟩ := h
        simp [List.filter_cons, hev, hi', hd', he', ht']
      · simp only [hev, if_false, Bool.false_eq_true] at h
        by_cases hca : is_calculated a v = true
        · simp only [hca, if_true] at h
          by_cases htd : v ∈ td
          · simp only [htd, if_true, Option.some.injEq] at h
            obtain ⟨rfl, rfl, rfl, rfl⟩ := h
            simp [List.filter_cons, hev, hca, htd, hi', hd', he', ht']
          · simp only [htd, if_false, Option.some.injEq] at h
            obtain ⟨rfl, rfl, rfl, rfl⟩ := h
            simp [List.filter_cons, hev, hca, htd, hi', hd', he', ht']
        · simp only [hca, if_false, Bool.false_eq_true] at h
          by_cases htd : v ∈ td
          · simp only [htd, if_true] at h
            simp at h
          · simp only [htd, if_false, Option.some.injEq] at h
            obtain ⟨rfl, rfl, rfl, rfl⟩ := h
            simp [List.filter_cons, hev, hca, htd, hi', hd', he', ht']

theorem four_bucket_length (a : Arena) (td : List Nat) :
    ∀ l : List (String × Nat),
      (l.filter (fun p => !is_evolving a p.2 && !is_calculated a p.2)).length +
      (l.filter
        (fun p => !is_evolving a p.2 && is_calculated a p.2 && !decide (p.2 ∈ td))).length +
      (l.filter
        (fun p => !is_evolving a p.2 && is_calculated a p.2 && decide (p.2 ∈ td))).length +
      (l.filter (fun p => is_evolving a p.2)).length = l.length := by
  intro l
  induction l with
  | nil => rfl
  | cons p rest ih =>
    by_cases hev : is_evolving a p.2 = true
    · simp [List.filter_cons, hev]
      omega
    · by_cases hca : is_calculated a p.2 = true
      · by_cases htd : p.2 ∈ td
        · simp [List.filter_cons, hev, hca, htd]
          omega
        · simp [List.filter_cons, hev, hca, htd]
          omega
      · by_cases htd : p.2 ∈ td
        · simp [List.filter_cons, hev, hca, htd]
          omega
        · simp [List.filter_cons, hev, hca, htd]
          omega

/-- C5: whenever `split_given_vars` succeeds, the four returned buckets
(inputs, derived constants, time-dependent outputs, evolving state) are
pairwise disjoint, their members are exactly the supplied entries (with
matching total length), and an evolving variable always lands in the
evolving bucket — never in derived constants or time-dependent
outputs. -/
theorem C5_split_buckets_partition (a : Arena) (td : List Nat)
    (desired i d e t : List (String × Nat))
    (h : split_given_vars a td desired = some (i, d, e, t)) :
    (∀ p, p ∈ desired ↔ (p ∈ i ∨ p ∈ d ∨ p ∈ t ∨ p ∈ e)) ∧
    i.length + d.length + t.length + e.length = desired.length ∧
    (∀ p, ¬(p ∈ i ∧ p ∈ d) ∧ ¬(p ∈ i ∧ p ∈ t) ∧ ¬(p ∈ i ∧ p ∈ e) ∧
          ¬(p ∈ d ∧ p ∈ t) ∧ ¬(p ∈ d ∧ p ∈ e) ∧ ¬(p ∈ t ∧ p ∈ e)) ∧
    (∀ p ∈ desired, is_evolving a p.2 = true → p ∈ e ∧ p ∉ d ∧ p ∉ t) := by
  obtain ⟨hi, hd, he, ht⟩ := split_eq_filters a td desired i d e t h
  subst hi hd he ht
  refine ⟨?_, ?_, ?_, ?_⟩
  · intro p
    constructor
    · intro hp
      by_cases hev : is_evolving a p.2 = true
      · exact Or.inr (Or.inr (Or.inr (List.mem_filter.mpr ⟨hp, by simp [hev]⟩)))
      · by_cases hca : is_calculated a p.2 = true
        · by_cases htd : p.2 ∈ td
          · exact Or.inr (Or.inr (Or.inl
              (List.mem_filter.mpr ⟨hp, by simp [hev, hca, htd]⟩)))
          · exact Or.inr (Or.inl (List.mem_filter.mpr ⟨hp, by simp [hev, hca, htd]⟩))
        · exact Or.inl (List.mem_filter.mpr ⟨hp, by simp [hev, hca]⟩)
    · intro hp
      rcases hp with hp | hp | hp | hp <;> exact (List.mem_filter.mp hp).1
  · exact four_bucket_length a td desired
  · intro p
    refine ⟨?_, ?_, ?_, ?_, ?_, ?_⟩ <;>
      rintro ⟨h₁, h₂⟩ <;>
      have hb₁ := (List.mem_filter.mp h₁).2 <;>
      have hb₂ := (List.mem_filter.mp h₂).2 <;>
      simp only [Bool.and_eq_true, Bool.not_eq_true'] at hb₁ hb₂ <;>
      simp_all
  · intro p hp hev
    refine ⟨List.mem_filter.mpr ⟨hp, by simp [hev]⟩, ?_, ?_⟩ <;>
      intro hmem <;>
      have hb := (List.mem_filter.mp hmem).2 <;>
      simp only [Bool.and_eq_true, Bool.not_eq_true'] at hb <;>
      simp_all

/-- Witness for C5: on the round-trip model the bucket lengths sum to
the number of supplied variables. -/
theorem C5_split_buckets_witness :
    ([("x", 1)] : List (String × Nat)).length +
      ([("y", 2)] : List (String × Nat)).length +
      ([] : List (String × Nat)).length +
      ([("z", 3)] : List (String × Nat)).length = c3Set.variables₀.length :=
  (C5_split_buckets_partition c3Set.arena [0, 3] c3Set.variables₀
    [("x", 1)] [("y", 2)] [("z", 3)] [] (by rfl)).2.1

/-! ### Variable state machine -/

theorem wrapRule_length (a : Arena) (t : Term) :
    a.length ≤ (wrapRule a t).1.length := by
  unfold wrapRule
  split
  · exact Nat.le_refl _
  · simp [mkConstant, alloc]

theorem calculationOf_isSome_var {a : Arena} {v : Nat}
    (hs : (calculationOf a v).isSome = true) :
    ∃ st c₀, a[v]? = some (Entry.var st (some c₀)) := by
  unfold calculationOf at hs
  cases ha : a[v]? with
  | none => rw [ha] at hs; simp at hs
  | some entry =>
    cases entry with
    | expr k ts => rw [ha] at hs; simp at hs
    | var st c =>
      cases c with
      | none => rw [ha] at hs; simp at hs
      | some c₀ => exact ⟨st, c₀, rfl⟩

/-- C7: re-assigning a rule to a variable that already has one, with
the override flag unset, succeeds — the new state and a rule are stored
— but fires the overriding warning; forcing an override
(`yes_really = True`) on a variable with no existing rule fails with
the assertion error; and a first, unforced assignment on a rule-free
variable succeeds without a warning. -/
theorem C7_rule_override_protocol (a : Arena) (v : Nat) (t : Term) :
    ((calculationOf a v).isSome = true →
      (∃ a', compute a v t false = .ok (a', true) ∧
        varState a' v = some VState.computed ∧ (calculationOf a' v).isSome = true) ∧
      (∃ a', evolve a v t false = .ok (a', true) ∧
        varState a' v = some VState.evolving ∧ (calculationOf a' v).isSome = true)) ∧
    (calculationOf a v = none →
      compute a v t true = .error "AssertionError: self.calculation is not None" ∧
      evolve a v t true = .error "AssertionError: self.calculation is not None") ∧
    (calculationOf a v = none →
      (∃ a', compute a v t false = .ok (a', false)) ∧
      (∃ a', evolve a v t false = .ok (a', false))) := by
  refine ⟨?_, ?_, ?_⟩
  · intro hs
    obtain ⟨st₀, c₀, ha⟩ := calculationOf_isSome_var hs
    have hlen : v < a.length := by
      rcases List.getElem?_eq_some_iff.mp ha with ⟨h, -⟩
      exact h
    have hlen' : v < (wrapRule a t).1.length :=
      Nat.lt_of_lt_of_le hlen (wrapRule_length a t)
    constructor
    · refine ⟨setVar (wrapRule a t).1 v .computed (some (wrapRule a t).2), ?_, ?_, ?_⟩
      · simp [compute, Variable_update, hs]
      · simp [varState, setVar, List.getElem?_set_self hlen']
      · simp [calculationOf, setVar, List.getElem?_set_self hlen']
    · refine ⟨setVar (wrapRule a t).1 v .evolving (some (wrapRule a t).2), ?_, ?_, ?_⟩
      · simp [evolve, Variable_update, hs]
      · simp [varState, setVar, List.getElem?_set_self hlen']
      · simp [calculationOf, setVar, List.getElem?_set_self hlen']
  · intro hn
    constructor
    · simp [compute, Variable_update, hn]
    · simp [evolve, Variable_update, hn]
  · intro hn
    constructor
    · exact ⟨setVar (wrapRule a t).1 v .computed (some (wrapRule a t).2),
        by simp [compute, Variable_update, hn]⟩
    · exact ⟨setVar (wrapRule a t).1 v .evolving (some (wrapRule a t).2),
        by simp [evolve, Variable_update, hn]⟩

/-- Witness for C7: on a one-variable arena with no rule, a forced
override fails with the assertion error. -/
theorem C7_rule_override_witness :
    compute [Entry.var .free none] 0 (Term.lit 1) true =
      .error "AssertionError: self.calculation is not None" ∧
    evolve [Entry.var .free none] 0 (Term.lit 1) true =
      .error "AssertionError: self.calculation is not None" :=
  (C7_rule_override_protocol [Entry.var .free none] 0 (Term.lit 1)).2.1 (by decide)

/-- C8: a function constructor registered with fixed arity `n` rejects
any operand count other than `n` with the arity error, and on exactly
`n` operands builds a `Function` node whose rendering is the function
name applied to the comma-separated operand names. -/
theorem C8_fixed_arity_function (a : Arena) (name : String) (n : Nat)
    (args : List Term) :
    (args.length ≠ n →
      function_factory a name (some n) args =
        .error ("Bad argument list for " ++ name)) ∧
    (args.length = n →
      function_factory a name (some n) args = .ok (mkFunction a name args) ∧
      ∀ m : SymbolMap,
        (renderNode (mkFunction a name args).1 m (mkFunction a name args).2).1 =
          name ++ "(" ++ String.intercalate ", " (namesOf m args).1 ++ ")") := by
  constructor
  · intro h
    simp [function_factory, h]
  · intro h
    refine ⟨by simp [function_factory, h], ?_⟩
    intro m
    have hget : (mkFunction a name args).1[(mkFunction a name args).2]? =
        some (Entry.expr (.function name) args) := by
      simp only [mkFunction, alloc]
      exact List.getElem?_concat_length a (Entry.expr (.function name) args)
    simp [renderNode, hget, renderText]

/-- Witness for C8: `pow` (registered with arity 2) rejects one operand
and renders two operands as `pow(var0, var1)`. -/
theorem C8_fixed_arity_witness :
    pow [] [Term.lit 1] = .error "Bad argument list for pow" ∧
    pow [] [Term.node 5, Term.node 9] =
      .ok (mkFunction [] "pow" [Term.node 5, Term.node 9]) ∧
    (renderNode (mkFunction [] "pow" [Term.node 5, Term.node 9]).1 SymbolMap.init
      (mkFunction [] "pow" [Term.node 5, Term.node 9]).2).1 = "pow(var0, var1)" :=
  ⟨(C8_fixed_arity_function [] "pow" 2 [Term.lit 1]).1 (by decide),
   ((C8_fixed_arity_function [] "pow" 2 [Term.node 5, Term.node 9]).2 rfl).1,
   (((C8_fixed_arity_function [] "pow" 2 [Term.node 5, Term.node 9]).2 rfl).2
     SymbolMap.init).trans (by decide)⟩

/-- C9: requesting a variable under a local name already present in the
immediate namespace fails with the duplicate-name error (`ODESet.new`
checks before inserting, so the collection is unchanged); the same
short name inside a nested sub-compartment succeeds, because the
qualified (underscore-joined) name differs.  The nested scenario is
exhibited concretely: `a` then `a` again fails, while `sub` / `a`
yields the fresh qualified name `sub_a`. -/
theorem C9_duplicate_and_qualified_names :
    (∀ (s : ODESet) (name : String), (s.variables₀.lookup name).isSome = true →
      s.new name = .error ("Duplicate variable name : " ++ name)) ∧
    (∀ (c : Compartment) (odes : ODESet) (name : String),
      (c.children.lookup name).isSome = true →
      c.new_variable odes name = .error "already extant name") ∧
    (Compartment.new_variable { name := none, children := [] } ODESet.init "a" =
      .ok ({ name := none, children := [("a", .variable₀ 1)] },
           { arena := [Entry.var .free none, Entry.var .free none], time := 0,
             variables₀ := [("a", 1)] }, 1) ∧
     Compartment.new_variable { name := none, children := [("a", ChildRef.variable₀ 1)] }
       { arena := [Entry.var .free none, Entry.var .free none], time := 0,
         variables₀ := [("a", 1)] } "a" = .error "already extant name" ∧
     Compartment.new_compartment { name := none, children := [("a", ChildRef.variable₀ 1)] }
       "sub" =
      .ok ({ name := none, children := [("a", .variable₀ 1), ("sub", .compartment)] },
           { name := some "sub", children := [] }) ∧
     Compartment.new_variable { name := some "sub", children := [] }
       { arena := [Entry.var .free none, Entry.var .free none], time := 0,
         variables₀ := [("a", 1)] } "a" =
      .ok ({ name := some "sub", children := [("a", .variable₀ 2)] },
           { arena := [Entry.var .free none, Entry.var .free none, Entry.var .free none],
             time := 0, variables₀ := [("a", 1), ("sub_a", 2)] }, 2)) := by
  refine ⟨?_, ?_, by rfl, by rfl, by rfl, by rfl⟩
  · intro s name h
    simp [ODESet.new, h]
  · intro c odes name h
    simp [Compartment.new_variable, Compartment._make_new_name, h, Bind.bind, Except.bind]

/-- Witness for C9: the duplicate-name failure applied to a concrete
one-variable collection. -/
theorem C9_duplicate_names_witness :
    ODESet.new { arena := [Entry.var .free none, Entry.var .free none], time := 0,
                 variables₀ := [("a", 1)] } "a" =
      .error "Duplicate variable name : a" :=
  C9_duplicate_and_qualified_names.1
    { arena := [Entry.var .free none, Entry.var .free none], time := 0,
      variables₀ := [("a", 1)] } "a" (by decide)

/-! ### The stored-rule invariant -/

theorem isVarEntry_lt {a : Arena} {v : Nat} (hv : isVarEntry a v = true) :
    v < a.length := by
  unfold isVarEntry at hv
  cases ha : a[v]? with
  | none => rw [ha] at hv; simp at hv
  | some e =>
    rcases List.getElem?_eq_some_iff.mp ha with ⟨h, -⟩
    exact h

theorem isCalcEntry_lt {a : Arena} {i : Nat} (hi : isCalcEntry a i = true) :
    i < a.length := by
  unfold isCalcEntry at hi
  cases ha : a[i]? with
  | none => rw [ha] at hi; simp at hi
  | some e =>
    rcases List.getElem?_eq_some_iff.mp ha with ⟨h, -⟩
    exact h

theorem isCalcEntry_ne_var {a : Arena} {i v : Nat} (hi : isCalcEntry a i = true)
    (hv : isVarEntry a v = true) : i ≠ v := by
  intro he
  subst he
  unfold isCalcEntry at hi
  unfold isVarEntry at hv
  cases ha : a[i]? with
  | none => rw [ha] at hi; simp at hi
  | some e =>
    rw [ha] at hi hv
    cases e <;> simp at hi hv

theorem isCalcTerm_node {a : Arena} {t : Term} (h : isCalcTerm a t = true) :
    ∃ i, t = .node i ∧ isCalcEntry a i = true := by
  cases t with
  | node i => exact ⟨i, rfl, h⟩
  | lit v => simp [isCalcTerm] at h

theorem update_ok_shape {a : Arena} {v : Nat} {t : Term} {st : VState} {y : Bool}
    {a' : Arena} {w : Bool} (h : Variable_update a v t st y = .ok (a', w)) :
    a' = setVar (wrapRule a t).1 v st (some (wrapRule a t).2) := by
  unfold Variable_update at h
  by_cases hc : (y && (calculationOf a v).isNone) = true
  · rw [if_pos hc] at h
    exact absurd h (by simp)
  · rw [if_neg hc] at h
    simp only [Except.ok.injEq, Prod.mk.injEq] at h
    exact h.1.symm

theorem isCalcEntry_mono_set {l : List Entry} {c v : Nat} {e : Entry}
    (h : isCalcEntry l c = true) (hne : v ≠ c) : isCalcEntry (l.set v e) c = true := by
  unfold isCalcEntry at h ⊢
  rw [List.getElem?_set_ne hne]
  exact h

theorem isCalcEntry_mono_append {l : List Entry} {c : Nat} {tail : List Entry}
    (h : isCalcEntry l c = true) : isCalcEntry (l ++ tail) c = true := by
  unfold isCalcEntry at h ⊢
  rw [List.getElem?_append_left (isCalcEntry_lt h)]
  exact h

theorem update_ok_invariant {a : Arena} {v : Nat} {t : Term} {st : VState} {y : Bool}
    {a' : Arena} {w : Bool}
    (hwf : WFA a) (hv : isVarEntry a v = true) (hst : st ≠ VState.free)
    (h : Variable_update a v t st y = .ok (a', w)) :
    WFA a' ∧ ∃ c, a'[v]? = some (Entry.var st (some c)) ∧ isCalcEntry a' c = true ∧
      (isCalcTerm a t = false → a'[c]? = some (Entry.expr .constant [t])) := by
  have ha' := update_ok_shape h
  have hlen : v < a.length := isVarEntry_lt hv
  by_cases hct : isCalcTerm a t = true
  · obtain ⟨i, rfl, hic⟩ := isCalcTerm_node hct
    have hwr : wrapRule a (.node i) = (a, i) := by
      unfold wrapRule
      rw [if_pos hct]
    rw [hwr] at ha'
    have hiv : i ≠ v := isCalcEntry_ne_var hic hv
    have hvq : a'[v]? = some (Entry.var st (some i)) := by
      rw [ha']
      exact List.getElem?_set_self hlen
    have hicalc' : isCalcEntry a' i = true := by
      rw [ha']
      exact isCalcEntry_mono_set hic (Ne.symm hiv)
    refine ⟨?_, i, hvq, hicalc', fun hf => absurd hct (by simp [hf])⟩
    intro j st' c' hj
    by_cases hjv : j = v
    · subst hjv
      rw [hvq] at hj
      obtain ⟨rfl, rfl⟩ : st = st' ∧ (some i : Option Nat) = c' := by
        have hinj := Option.some.inj hj
        cases hinj
        exact ⟨rfl, rfl⟩
      exact ⟨by simp [hst], fun calc₀ hc => by cases hc; exact hicalc'⟩
    · have hj' : a[j]? = some (Entry.var st' c') := by
        rw [ha', setVar] at hj
        rwa [List.getElem?_set_ne (fun he => hjv he.symm)] at hj
      obtain ⟨hiff, hptr⟩ := hwf j st' c' hj'
      refine ⟨hiff, fun calc₀ hc => ?_⟩
      have hcalc := hptr calc₀ hc
      rw [ha']
      exact isCalcEntry_mono_set hcalc (Ne.symm (isCalcEntry_ne_var hcalc hv))
  · have hwr : wrapRule a t = (a ++ [Entry.expr .constant [t]], a.length) := by
      unfold wrapRule
      rw [if_neg (by simp [hct])]
      rfl
    rw [hwr] at ha'
    have hlen' : v < (a ++ [Entry.expr .constant [t]]).length := by
      simp only [List.length_append, List.length_cons, List.length_nil]
      omega
    have hvq : a'[v]? = some (Entry.var st (some a.length)) := by
      rw [ha']
      exact List.getElem?_set_self hlen'
    have hcq : a'[a.length]? = some (Entry.expr .constant [t]) := by
      rw [ha', setVar]
      rw [List.getElem?_set_ne (Nat.ne_of_lt hlen)]
      exact List.getElem?_concat_length a _
    have hicalc' : isCalcEntry a' a.length = true := by
      unfold isCalcEntry
      rw [hcq]
    refine ⟨?_, a.length, hvq, hicalc', fun _ => hcq⟩
    intro j st' c' hj
    by_cases hjv : j = v
    · subst hjv
      rw [hvq] at hj
      have hinj := Option.some.inj hj
      obtain ⟨rfl, rfl⟩ : st = st' ∧ (some a.length : Option Nat) = c' := by
        cases hinj
        exact ⟨rfl, rfl⟩
      exact ⟨by simp [hst], fun calc₀ hc => by cases hc; exact hicalc'⟩
    · have hj₀ : (a ++ [Entry.expr .constant [t]])[j]? = some (Entry.var st' c') := by
        rw [ha', setVar] at hj
        rwa [List.getElem?_set_ne (fun he => hjv he.symm)] at hj
      by_cases hjlen : j < a.length
      · have hj' : a[j]? = some (Entry.var st' c') := by
          rwa [List.getElem?_append_left hjlen] at hj₀
        obtain ⟨hiff, hptr⟩ := hwf j st' c' hj'
        refine ⟨hiff, fun calc₀ hc => ?_⟩
        have hcalc := hptr calc₀ hc
        rw [ha']
        exact isCalcEntry_mono_set (isCalcEntry_mono_append hcalc)
          (Ne.symm (isCalcEntry_ne_var hcalc hv))
      · exfalso
        by_cases hje : j = a.length
        · subst hje
          rw [List.getElem?_concat_length] at hj₀
          simp at hj₀
        · have : (a ++ [Entry.expr .constant [t]]).length ≤ j := by
            simp only [List.length_append, List.length_cons, List.length_nil]
            omega
          rw [List.getElem?_eq_none this] at hj₀
          simp at hj₀

/-- C10: after any successful `compute` or `evolve` on a well-formed
arena, the variable stores the requested non-free state together with a
rule id that refers to a `Calculation` entry; when the supplied rule
was not itself a `Calculation` (a bare variable node or a raw literal),
the stored rule is the fresh `Constant` wrapping it; and the invariant
"a variable is free exactly when it holds no rule, and every held rule
is a `Calculation`" (`WFA`) is preserved. -/
theorem C10_stored_rules_are_calculations (a : Arena) (v : Nat) (t : Term) (y : Bool)
    (hwf : WFA a) (hv : isVarEntry a v = true) :
    (∀ a' w, compute a v t y = .ok (a', w) →
      WFA a' ∧ ∃ c, a'[v]? = some (Entry.var .computed (some c)) ∧
        isCalcEntry a' c = true ∧
        (isCalcTerm a t = false → a'[c]? = some (Entry.expr .constant [t]))) ∧
    (∀ a' w, evolve a v t y = .ok (a', w) →
      WFA a' ∧ ∃ c, a'[v]? = some (Entry.var .evolving (some c)) ∧
        isCalcEntry a' c = true ∧
        (isCalcTerm a t = false → a'[c]? = some (Entry.expr .constant [t]))) := by
  constructor
  · intro a' w h
    exact update_ok_invariant hwf hv (by simp) h
  · intro a' w h
    exact update_ok_invariant hwf hv (by simp) h

/-- Witness for C10: assigning the literal rule `5` to a fresh free
variable wraps it in a `Constant` node. -/
theorem C10_stored_rules_witness :
    WFA [Entry.var .computed (some 1), Entry.expr .constant [Term.lit 5]] ∧
    ∃ c, ([Entry.var .computed (some 1), Entry.expr .constant [Term.lit 5]] :
        Arena)[0]? = some (Entry.var .computed (some c)) ∧
      isCalcEntry [Entry.var .computed (some 1), Entry.expr .constant [Term.lit 5]] c =
        true ∧
      (isCalcTerm [Entry.var .free none] (Term.lit 5) = false →
        ([Entry.var .computed (some 1), Entry.expr .constant [Term.lit 5]] :
          Arena)[c]? = some (Entry.expr .constant [Term.lit 5])) :=
  (C10_stored_rules_are_calculations [Entry.var .free none] 0 (Term.lit 5) false
      (by
        intro i st c h
        rcases i with _ | i
        · simp only [List.getElem?_cons_zero, Option.some.injEq] at h
          cases h
          exact ⟨by simp, fun calc₀ hc => by simp at hc⟩
        · simp at h)
      (by decide)).1
    [Entry.var .computed (some 1), Entry.expr .constant [Term.lit 5]] false rfl

/-! ### Graph primitives -/

theorem addNode_nodes_super {g : Graph} {i n : Nat} (h : n ∈ g.nodes) :
    n ∈ (g.addNode i).nodes := by
  unfold Graph.addNode
  split
  · exact h
  · exact List.mem_append_left _ h

theorem addNode_mem_self (g : Graph) (i : Nat) : i ∈ (g.addNode i).nodes := by
  unfold Graph.addNode
  split
  · assumption
  · exact List.mem_append_right _ (List.mem_singleton_self i)

theorem addNode_edges (g : Graph) (i : Nat) : (g.addNode i).edges = g.edges := by
  unfold Graph.addNode
  split <;> rfl

theorem addEdge_edges_super {g : Graph} {u v : Nat} {e : Nat × Nat}
    (h : e ∈ g.edges) : e ∈ (g.addEdge u v).edges := by
  unfold Graph.addEdge
  split
  · rw [addNode_edges, addNode_edges]
    exact h
  · rw [addNode_edges, addNode_edges]
    exact List.mem_append_left _ h

theorem addEdge_mem_self (g : Graph) (u v : Nat) : (u, v) ∈ (g.addEdge u v).edges := by
  unfold Graph.addEdge
  split
  · rw [addNode_edges, addNode_edges]
    rwa [addNode_edges, addNode_edges] at *
  · rw [addNode_edges, addNode_edges]
    exact List.mem_append_right _ (List.mem_singleton_self _)

theorem addEdge_edges_cases {g : Graph} {u v : Nat} {e : Nat × Nat}
    (h : e ∈ (g.addEdge u v).edges) : e ∈ g.edges ∨ e = (u, v) := by
  unfold Graph.addEdge at h
  revert h
  split
  · rw [addNode_edges, addNode_edges]
    exact fun h => Or.inl h
  · rw [addNode_edges, addNode_edges]
    intro h
    rcases List.mem_append.mp h with h | h
    · exact Or.inl h
    · exact Or.inr (List.mem_singleton.mp h)

theorem addEdge_nodes_super {g : Graph} {u v n : Nat} (h : n ∈ g.nodes) :
    n ∈ (g.addEdge u v).nodes := by
  unfold Graph.addEdge
  have h' : n ∈ ((g.addNode u).addNode v).nodes :=
    addNode_nodes_super (addNode_nodes_super h)
  split
  · exact h'
  · exact h'

theorem addEdge_nodes_self (g : Graph) (u v : Nat) :
    u ∈ (g.addEdge u v).nodes ∧ v ∈ (g.addEdge u v).nodes := by
  unfold Graph.addEdge
  have hu : u ∈ ((g.addNode u).addNode v).nodes :=
    addNode_nodes_super (addNode_mem_self g u)
  have hv : v ∈ ((g.addNode u).addNode v).nodes := addNode_mem_self _ v
  split
  · exact ⟨hu, hv⟩
  · exact ⟨hu, hv⟩

theorem addEdge_EIN {g : Graph} {u v : Nat} (h : EdgesInNodes g) :
    EdgesInNodes (g.addEdge u v) := by
  intro e he
  rcases addEdge_edges_cases he with he₀ | rfl
  · obtain ⟨h₁, h₂⟩ := h e he₀
    exact ⟨addEdge_nodes_super h₁, addEdge_nodes_super h₂⟩
  · exact addEdge_nodes_self g u v

/-! ### `depsFold` -/

theorem depsFold_edges_super {current : Nat} {seen : List Nat} (deps : List Nat) :
    ∀ (g : Graph) (pending : List Nat) {e : Nat × Nat}, e ∈ g.edges →
      e ∈ (depsFold current seen deps g pending).1.edges := by
  induction deps with
  | nil => intro g pending e h; exact h
  | cons d rest ih =>
    intro g pending e h
    exact ih _ _ (addEdge_edges_super h)

theorem depsFold_edges_cases {current : Nat} {seen : List Nat} (deps : List Nat) :
    ∀ (g : Graph) (pending : List Nat) {e : Nat × Nat},
      e ∈ (depsFold current seen deps g pending).1.edges →
      e ∈ g.edges ∨ e.2 = current := by
  induction deps with
  | nil => intro g pending e h; exact Or.inl h
  | cons d rest ih =>
    intro g pending e h
    rcases ih _ _ h with h₀ | h₀
    · rcases addEdge_edges_cases h₀ with h₁ | rfl
      · exact Or.inl h₁
      · exact Or.inr rfl
    · exact Or.inr h₀

theorem depsFold_nodes_super {current : Nat} {seen : List Nat} (deps : List Nat) :
    ∀ (g : Graph) (pending : List Nat) {n : Nat}, n ∈ g.nodes →
      n ∈ (depsFold current seen deps g pending).1.nodes := by
  induction deps with
  | nil => intro g pending n h; exact h
  | cons d rest ih =>
    intro g pending n h
    exact ih _ _ (addEdge_nodes_super h)

theorem depsFold_pending_super {current : Nat} {seen : List Nat} (deps : List Nat) :
    ∀ (g : Graph) (pending : List Nat) {x : Nat}, x ∈ pending →
      x ∈ (depsFold current seen deps g pending).2 := by
  induction deps with
  | nil => intro g pending x h; exact h
  | cons d rest ih =>
    intro g pending x h
    apply ih
    by_cases hd : d ∈ seen
    · simpa [depsFold, hd] using h
    · simp only [hd, if_neg, if_false]
      exact List.mem_cons_of_mem _ h

theorem depsFold_EIN {current : Nat} {seen : List Nat} (deps : List Nat) :
    ∀ (g : Graph) (pending : List Nat), EdgesInNodes g →
      EdgesInNodes (depsFold current seen deps g pending).1 := by
  induction deps with
  | nil => intro g pending h; exact h
  | cons d rest ih =>
    intro g pending h
    exact ih _ _ (addEdge_EIN h)

/-! ### The classifier worklist -/

theorem is_evolving_inv {a : Arena} {v : Nat} (h : is_evolving a v = true) :
    ∃ c, a[v]? = some (Entry.var .evolving c) := by
  unfold is_evolving varState at h
  cases ha : a[v]? with
  | none => rw [ha] at h; simp at h
  | some e =>
    cases e with
    | expr k ts => rw [ha] at h; simp at h
    | var st c =>
      rw [ha] at h
      simp only [decide_eq_true_eq, Option.some.injEq] at h
      exact ⟨c, by rw [h]⟩

theorem classifyLoop_edges_mono (a : Arena) (time : Nat) :
    ∀ (fuel : Nat) (g : Graph) (pending seen : List Nat) (g' : Graph),
      classifyLoop a time fuel g pending seen = some g' →
      ∀ {e : Nat × Nat}, e ∈ g.edges → e ∈ g'.edges := by
  intro fuel
  induction fuel with
  | zero =>
    intro g pending seen g' h
    simp [classifyLoop] at h
  | succ fuel ih =>
    intro g pending seen g' h e he
    cases pending with
    | nil =>
      simp only [classifyLoop, Option.some.injEq] at h
      rw [← h]
      exact he
    | cons current rest =>
      simp only [classifyLoop] at h
      cases ha : a[current]? with
      | none => rw [ha] at h; exact absurd h (by simp)
      | some entry =>
        rw [ha] at h
        cases entry with
        | expr k terms =>
          exact ih _ _ _ _ h (depsFold_edges_super _ _ _ he)
        | var st c =>
          cases st with
          | free => exact ih _ _ _ _ h he
          | computed =>
            cases c with
            | none => exact absurd h (by simp)
            | some calc₀ => exact ih _ _ _ _ h (addEdge_edges_super he)
          | evolving =>
            cases c with
            | none => exact absurd h (by simp)
            | some calc₀ => exact ih _ _ _ _ h (addEdge_edges_super he)

theorem classifyLoop_nodes_mono (a : Arena) (time : Nat) :
    ∀ (fuel : Nat) (g : Graph) (pending seen : List Nat) (g' : Graph),
      classifyLoop a time fuel g pending seen = some g' →
      ∀ {n : Nat}, n ∈ g.nodes → n ∈ g'.nodes := by
  intro fuel
  induction fuel with
  | zero =>
    intro g pending seen g' h
    simp [classifyLoop] at h
  | succ fuel ih =>
    intro g pending seen g' h n hn
    cases pending with
    | nil =>
      simp only [classifyLoop, Option.some.injEq] at h
      rw [← h]
      exact hn
    | cons current rest =>
      simp only [classifyLoop] at h
      cases ha : a[current]? with
      | none => rw [ha] at h; exact absurd h (by simp)
      | some entry =>
        rw [ha] at h
        cases entry with
        | expr k terms =>
          exact ih _ _ _ _ h (depsFold_nodes_super _ _ _ hn)
        | var st c =>
          cases st with
          | free => exact ih _ _ _ _ h hn
          | computed =>
            cases c with
            | none => exact absurd h (by simp)
            | some calc₀ => exact ih _ _ _ _ h (addEdge_nodes_super hn)
          | evolving =>
            cases c with
            | none => exact absurd h (by simp)
            | some calc₀ => exact ih _ _ _ _ h (addEdge_nodes_super hn)

theorem classifyLoop_EIN (a : Arena) (time : Nat) :
    ∀ (fuel : Nat) (g : Graph) (pending seen : List Nat) (g' : Graph),
      classifyLoop a time fuel g pending seen = some g' →
      EdgesInNodes g → EdgesInNodes g' := by
  intro fuel
  induction fuel with
  | zero =>
    intro g pending seen g' h
    simp [classifyLoop] at h
  | succ fuel ih =>
    intro g pending seen g' h hg
    cases pending with
    | nil =>
      simp only [classifyLoop, Option.some.injEq] at h
      rw [← h]
      exact hg
    | cons current rest =>
      simp only [classifyLoop] at h
      cases ha : a[current]? with
      | none => rw [ha] at h; exact absurd h (by simp)
      | some entry =>
        rw [ha] at h
        cases entry with
        | expr k terms =>
          exact ih _ _ _ _ h (depsFold_EIN _ _ _ hg)
        | var st c =>
          cases st with
          | free => exact ih _ _ _ _ h hg
          | computed =>
            cases c with
            | none => exact absurd h (by simp)
            | some calc₀ => exact ih _ _ _ _ h (addEdge_EIN hg)
          | evolving =>
            cases c with
            | none => exact absurd h (by simp)
            | some calc₀ => exact ih _ _ _ _ h (addEdge_EIN hg)

theorem classifyLoop_targets (a : Arena) (time : Nat) :
    ∀ (fuel : Nat) (g : Graph) (pending seen : List Nat) (g' : Graph),
      classifyLoop a time fuel g pending seen = some g' →
      EdgeTargetsOK a g → EdgeTargetsOK a g' := by
  intro fuel
  induction fuel with
  | zero =>
    intro g pending seen g' h
    simp [classifyLoop] at h
  | succ fuel ih =>
    intro g pending seen g' h hg
    cases pending with
    | nil =>
      simp only [classifyLoop, Option.some.injEq] at h
      rw [← h]
      exact hg
    | cons current rest =>
      simp only [classifyLoop] at h
      cases ha : a[current]? with
      | none => rw [ha] at h; exact absurd h (by simp)
      | some entry =>
        rw [ha] at h
        cases entry with
        | expr k terms =>
          refine ih _ _ _ _ h ?_
          intro e he
          rcases depsFold_edges_cases _ _ _ he with h₀ | h₀
          · exact hg e h₀
          · left
            rw [h₀]
            unfold isCalcEntry
            rw [ha]
        | var st c =>
          cases st with
          | free => exact ih _ _ _ _ h hg
          | computed =>
            cases c with
            | none => exact absurd h (by simp)
            | some calc₀ =>
              refine ih _ _ _ _ h ?_
              intro e he
              rcases addEdge_edges_cases he with h₀ | h₀
              · exact hg e h₀
              · right; left
                rw [h₀]
                unfold is_calculated varState
                rw [ha]
                simp
          | evolving =>
            cases c with
            | none => exact absurd h (by simp)
            | some calc₀ =>
              refine ih _ _ _ _ h ?_
              intro e he
              rcases addEdge_edges_cases he with h₀ | h₀
              · exact hg e h₀
              · right; right
                rw [h₀]
                unfold is_evolving varState
                rw [ha]
                simp

theorem classifyLoop_evolving (a : Arena) (time : Nat) :
    ∀ (fuel : Nat) (g : Graph) (pending seen : List Nat) (g' : Graph),
      classifyLoop a time fuel g pending seen = some g' →
      ∀ {v : Nat}, v ∈ pending → is_evolving a v = true → (time, v) ∈ g'.edges := by
  intro fuel
  induction fuel with
  | zero =>
    intro g pending seen g' h
    simp [classifyLoop] at h
  | succ fuel ih =>
    intro g pending seen g' h v hv hev
    cases pending with
    | nil => simp at hv
    | cons current rest =>
      simp only [classifyLoop] at h
      rcases List.mem_cons.mp hv with rfl | hvr
      · obtain ⟨c, ha⟩ := is_evolving_inv hev
        rw [ha] at h
        cases c with
        | none => exact absurd h (by simp)
        | some calc₀ =>
          exact classifyLoop_edges_mono a time _ _ _ _ _ h (addEdge_mem_self g time v)
      · cases ha : a[current]? with
        | none => rw [ha] at h; exact absurd h (by simp)
        | some entry =>
          rw [ha] at h
          cases entry with
          | expr k terms =>
            exact ih _ _ _ _ h (depsFold_pending_super _ _ _ hvr) hev
          | var st c =>
            cases st with
            | free => exact ih _ _ _ _ h hvr hev
            | computed =>
              cases c with
              | none => exact absurd h (by simp)
              | some calc₀ =>
                refine ih _ _ _ _ h ?_ hev
                by_cases hc : calc₀ ∈ current :: seen
                · simpa [hc] using hvr
                · simp only [hc, if_neg, if_false]
                  exact List.mem_cons_of_mem _ hvr
            | evolving =>
              cases c with
              | none => exact absurd h (by simp)
              | some calc₀ =>
                refine ih _ _ _ _ h ?_ hev
                by_cases hc : calc₀ ∈ current :: seen
                · simpa [hc] using hvr
                · simp only [hc, if_neg, if_false]
                  exact List.mem_cons_of_mem _ hvr

/-! ### Reachability and topological sort -/

theorem reachStep_super (edges : List (Nat × Nat)) :
    ∀ (r : List Nat) {x : Nat}, x ∈ r → x ∈ reachStep edges r := by
  induction edges with
  | nil => intro r x h; exact h
  | cons e tail ih =>
    intro r x h
    show x ∈ reachStep tail (if e.1 ∈ r ∧ e.2 ∉ r then r ++ [e.2] else r)
    apply ih
    split
    · exact List.mem_append_left _ h
    · exact h

theorem reachStep_src (edges : List (Nat × Nat)) :
    ∀ (r : List Nat) {e : Nat × Nat}, e ∈ edges → e.1 ∈ r →
      e.2 ∈ reachStep edges r := by
  induction edges with
  | nil => intro r e h; simp at h
  | cons e₀ tail ih =>
    intro r e he h1
    show e.2 ∈ reachStep tail (if e₀.1 ∈ r ∧ e₀.2 ∉ r then r ++ [e₀.2] else r)
    rcases List.mem_cons.mp he with rfl | hmem
    · apply reachStep_super
      by_cases h2 : e.2 ∈ r
      · split
        · exact List.mem_append_left _ h2
        · exact h2
      · rw [if_pos ⟨h1, h2⟩]
        exact List.mem_append_right _ (List.mem_singleton_self _)
    · apply ih _ hmem
      split
      · exact List.mem_append_left _ h1
      · exact h1

theorem reachStep_cases (edges : List (Nat × Nat)) :
    ∀ (r : List Nat) {x : Nat}, x ∈ reachStep edges r →
      x ∈ r ∨ ∃ e ∈ edges, e.2 = x := by
  induction edges with
  | nil => intro r x h; exact Or.inl h
  | cons e₀ tail ih =>
    intro r x h
    have h' : x ∈ reachStep tail (if e₀.1 ∈ r ∧ e₀.2 ∉ r then r ++ [e₀.2] else r) := h
    rcases ih _ h' with h₀ | ⟨e, he, rfl⟩
    · revert h₀
      split
      · intro h₀
        rcases List.mem_append.mp h₀ with h₁ | h₁
        · exact Or.inl h₁
        · exact Or.inr ⟨e₀, List.mem_cons_self _ _, (List.mem_singleton.mp h₁).symm⟩
      · exact fun h₀ => Or.inl h₀
    · exact Or.inr ⟨e, List.mem_cons_of_mem _ he, rfl⟩

theorem reachIter_super (edges : List (Nat × Nat)) :
    ∀ (n : Nat) (r : List Nat) {x : Nat}, x ∈ r → x ∈ reachIter edges n r := by
  intro n
  induction n with
  | zero => intro r x h; exact h
  | succ n ih =>
    intro r x h
    exact ih _ (reachStep_super edges r h)

theorem reachIter_cases (edges : List (Nat × Nat)) :
    ∀ (n : Nat) (r : List Nat) {x : Nat}, x ∈ reachIter edges n r →
      x ∈ r ∨ ∃ e ∈ edges, e.2 = x := by
  intro n
  induction n with
  | zero => intro r x h; exact Or.inl h
  | succ n ih =>
    intro r x h
    rcases ih _ h with h₀ | h₀
    · exact reachStep_cases edges r h₀
    · exact Or.inr h₀

theorem reachableFrom_of_edge {g : Graph} {time v : Nat}
    (hn : time ∈ g.nodes) (he : (time, v) ∈ g.edges) :
    v ∈ reachableFrom g time := by
  unfold reachableFrom
  cases hL : g.nodes.length with
  | zero =>
    exfalso
    rw [List.length_eq_zero] at hL
    rw [hL] at hn
    simp at hn
  | succ k =>
    show v ∈ reachIter g.edges (k + 1) [time]
    have : v ∈ reachStep g.edges [time] :=
      reachStep_src g.edges [time] he (List.mem_singleton_self time)
    exact reachIter_super g.edges k _ this

theorem reachableFrom_cases {g : Graph} {time v : Nat}
    (h : v ∈ reachableFrom g time) : v = time ∨ ∃ e ∈ g.edges, e.2 = v := by
  unfold reachableFrom at h
  rcases reachIter_cases g.edges _ _ h with h₀ | h₀
  · exact Or.inl (List.mem_singleton.mp h₀)
  · exact Or.inr h₀

theorem kahnLoop_complete :
    ∀ (fuel : Nat) (edges : List (Nat × Nat)) (remaining acc l : List Nat),
      kahnLoop fuel edges remaining acc = some l →
      ∀ {n : Nat}, n ∈ remaining ∨ n ∈ acc → n ∈ l := by
  intro fuel
  induction fuel with
  | zero =>
    intro edges remaining acc l h
    simp [kahnLoop] at h
  | succ fuel ih =>
    intro edges remaining acc l h n hn
    cases remaining with
    | nil =>
      simp only [kahnLoop, Option.some.injEq] at h
      rcases hn with hn | hn
      · simp at hn
      · rw [← h]
        exact List.mem_reverse.mpr hn
    | cons r rs =>
      simp only [kahnLoop] at h
      cases hf : (r :: rs).find? (noIncoming edges (r :: rs)) with
      | none => rw [hf] at h; exact absurd h (by simp)
      | some m =>
        rw [hf] at h
        rcases hn with hn | hn
        · by_cases hnm : n = m
          · exact ih _ _ _ _ h (Or.inr (hnm ▸ List.mem_cons_self _ _))
          · exact ih _ _ _ _ h (Or.inl ((List.mem_erase_of_ne hnm).mpr hn))
        · exact ih _ _ _ _ h (Or.inr (List.mem_cons_of_mem _ hn))

theorem topological_sort_complete {g : Graph} {l : List Nat}
    (h : topological_sort g = some l) : ∀ {n : Nat}, n ∈ g.nodes → n ∈ l :=
  fun hn => kahnLoop_complete _ _ _ _ _ h (Or.inl hn)

theorem is_free_not_target {a : Arena} {v : Nat} (hf : is_free a v = true) :
    isCalcEntry a v = false ∧ is_calculated a v = false ∧ is_evolving a v = false := by
  unfold is_free varState at hf
  cases ha : a[v]? with
  | none => rw [ha] at hf; simp at hf
  | some e =>
    cases e with
    | expr k ts => rw [ha] at hf; simp at hf
    | var st c =>
      rw [ha] at hf
      simp only [decide_eq_true_eq, Option.some.injEq] at hf
      refine ⟨?_, ?_, ?_⟩
      · unfold isCalcEntry
        rw [ha]
      · unfold is_calculated varState
        rw [ha]
        simp [hf]
      · unfold is_evolving varState
        rw [ha]
        simp [hf]

theorem var_not_evolving_not_calculated_free {a : Arena} {v : Nat}
    (hvar : isVarEntry a v = true) (hev : ¬is_evolving a v = true)
    (hca : ¬is_calculated a v = true) : is_free a v = true := by
  unfold isVarEntry at hvar
  cases ha : a[v]? with
  | none => rw [ha] at hvar; simp at hvar
  | some e =>
    cases e with
    | expr k ts => rw [ha] at hvar; simp at hvar
    | var st c =>
      unfold is_evolving varState at hev
      unfold is_calculated varState at hca
      rw [ha] at hev hca
      unfold is_free varState
      rw [ha]
      cases st with
      | free => simp
      | computed => simp at hca
      | evolving => simp at hev

/-- C2 amended: an evolving variable, far from never appearing there,
*always* appears in the time-dependent partition returned by
`classify_all` whenever classification completes — `classify_all` adds
the edge time → evolving-variable, making it directly reachable from
time.  (The splitter still routes it to the evolving bucket, never to
the derived-constants or time-dependent-outputs buckets; see the C5
theorem.) -/
theorem C2_amended_evolving_always_time_dependent (a : Arena) (fuel time : Nat)
    (vars ti td : List Nat) (v : Nat)
    (h : classify_all a fuel time vars = some (ti, td))
    (hv : v ∈ vars) (hev : is_evolving a v = true) : v ∈ td := by
  unfold classify_all at h
  rcases Option.bind_eq_some.mp h with ⟨g, hg, h₂⟩
  rcases Option.bind_eq_some.mp h₂ with ⟨tsort, hts, h₃⟩
  simp only [Option.some.injEq, Prod.mk.injEq] at h₃
  obtain ⟨hti, htd⟩ := h₃
  have hedge : (time, v) ∈ g.edges :=
    classifyLoop_evolving a time fuel _ _ _ _ hg (List.mem_reverse.mpr hv) hev
  have hEIN : EdgesInNodes g :=
    classifyLoop_EIN a time fuel _ _ _ _ hg
      (by intro e he; rw [addNode_edges] at he; simp at he)
  have htimeg : time ∈ g.nodes :=
    classifyLoop_nodes_mono a time fuel _ _ _ _ hg (addNode_mem_self _ _)
  have hreach : v ∈ reachableFrom g time :=
    reachableFrom_of_edge htimeg hedge
  have hsort : v ∈ tsort := topological_sort_complete hts (hEIN _ hedge).2
  rw [← htd]
  exact List.mem_filter.mpr ⟨hsort, by simp [hreach]⟩

/-- Witness for the amended C2: in the model `{x free, z.evolve(x)}`
the evolving variable `z` (id 2) lands in the time-dependent
partition `[0, 2]`. -/
theorem C2_amended_evolving_witness : 2 ∈ [0, 2] :=
  C2_amended_evolving_always_time_dependent c1Set.arena 100 c1Set.time
    (c1Set.variables₀.map Prod.snd) [1, 3] [0, 2] 2 (by rfl) (by decide) (by decide)

/-- C6: whenever `classify_all` completes, a free variable other than
the time node is never a member of the time-dependent partition (the
dependency graph gives free variables no incoming edges), so the
defensive assertion of `split_given_vars` cannot fire on a
name→variable list of genuine non-time variables: the split always
succeeds there. -/
theorem C6_free_never_time_dependent (a : Arena) (fuel time : Nat)
    (vars ti td : List Nat)
    (h : classify_all a fuel time vars = some (ti, td)) :
    (∀ v, is_free a v = true → v ≠ time → v ∉ td) ∧
    (∀ desired : List (String × Nat),
      (∀ p ∈ desired, isVarEntry a p.2 = true ∧ p.2 ≠ time) →
      (split_given_vars a td desired).isSome = true) := by
  unfold classify_all at h
  rcases Option.bind_eq_some.mp h with ⟨g, hg, h₂⟩
  rcases Option.bind_eq_some.mp h₂ with ⟨tsort, hts, h₃⟩
  simp only [Option.some.injEq, Prod.mk.injEq] at h₃
  obtain ⟨hti, htd⟩ := h₃
  have htg : EdgeTargetsOK a g :=
    classifyLoop_targets a time fuel _ _ _ _ hg
      (by intro e he; rw [addNode_edges] at he; simp at he)
  have hfree_not : ∀ v, is_free a v = true → v ≠ time → v ∉ td := by
    intro v hfree hneq hmem
    rw [← htd] at hmem
    have hreach : v ∈ reachableFrom g time := by
      have := (List.mem_filter.mp hmem).2
      simpa using this
    rcases reachableFrom_cases hreach with rfl | ⟨e, he, he2⟩
    · exact hneq rfl
    · obtain ⟨hc₁, hc₂, hc₃⟩ := is_free_not_target hfree
      rcases htg e he with hc | hc | hc <;> rw [he2] at hc
      · rw [hc₁] at hc; exact absurd hc (by simp)
      · rw [hc₂] at hc; exact absurd hc (by simp)
      · rw [hc₃] at hc; exact absurd hc (by simp)
  refine ⟨hfree_not, ?_⟩
  intro desired hdes
  induction desired with
  | nil => simp [split_given_vars]
  | cons p rest ih =>
    have hrest : (split_given_vars a td rest).isSome = true :=
      ih fun q hq => hdes q (List.mem_cons_of_mem _ hq)
    obtain ⟨name, v⟩ := p
    obtain ⟨hvar, hneq⟩ := hdes (name, v) (List.mem_cons_self _ _)
    cases hq : split_given_vars a td rest with
    | none => rw [hq] at hrest; simp at hrest
    | some q =>
      obtain ⟨i', d', e', t'⟩ := q
      rw [split_given_vars, hq]
      simp only [Option.bind_eq_bind, Option.some_bind]
      by_cases hev : is_evolving a v = true
      · simp [hev]
      · simp only [hev, Bool.false_eq_true, if_false]
        by_cases hca : is_calculated a v = true
        · simp only [hca, if_true]
          by_cases hvt : v ∈ td
          · simp [hvt]
          · simp [hvt]
        · simp only [hca, Bool.false_eq_true, if_false]
          have hfree : is_free a v = true :=
            var_not_evolving_not_calculated_free hvar hev hca
          have hnot : v ∉ td := hfree_not v hfree hneq
          rw [if_neg hnot]
          simp

/-- Witness for C6: on the model `{x free, z.evolve(x)}` the splitter
succeeds on the full variable list against the computed time-dependent
partition. -/
theorem C6_free_never_time_dependent_witness :
    (split_given_vars c1Set.arena [0, 2] c1Set.variables₀).isSome = true :=
  (C6_free_never_time_dependent c1Set.arena 100 c1Set.time
    (c1Set.variables₀.map Prod.snd) [1, 3] [0, 2] (by rfl)).2
    c1Set.variables₀ (by decide)

end Defode
